import Mathlib

/-!
Verification of the OpenAugi context-gathering core against its
natural-language specification.

The TypeScript sources are shallowly embedded: strings are `List Char`,
note identities are `Nat` (stable paths), timestamps are `Int` at day
granularity, and the host vault / metadata cache / Dataview extension are
abstracted as explicit environment records.  Every definition follows the
corresponding source function; deviations forced by the embedding (ghost
fields, abstract environments) are noted where they occur.
-/

namespace OpenAugi

/-! `Array.prototype.sort` with a comparator is modelled by Mathlib's
stable `List.insertionSort`; the claims only use sortedness and the
permutation property, which hold for the V8 sort as well. -/

/-! ## ReferenceSanitizer (`src/utils/filename-utils.ts`)

`sanitizeFilename` replaces every character illegal in a file name with
the fixed sequence `" - "`.  `processBacklinks` rewrites every
`[[title]]` occurrence, replacing the captured title by its registered
sanitized identifier, falling back to `sanitizeFilename` (the JS
`map.get(title) || sanitizeFilename(title)` also falls back when the
registered value is the empty string, which is falsy).  The per-batch
`Map` of `BacklinkMapper` is modelled as a partial function
`List Char → Option (List Char)`.
-/

def illegalChar (c : Char) : Bool :=
  c = '\\' || c = '/' || c = ':' || c = '*' || c = '?' ||
  c = '"' || c = '<' || c = '>' || c = '|'

def sanitizeFilename : List Char → List Char
  | [] => []
  | c :: cs => (if illegalChar c then [' ', '-', ' '] else [c]) ++ sanitizeFilename cs

/-- Lazy search for the closing `]]` of the regex `\[\[(.*?)\]\]`:
returns the shortest capture (which cannot contain a newline, since `.`
does not match `\n` in a JS regex) together with the remainder after the
closing brackets, or `none` when no close exists on the line. -/
def findClose : List Char → Option (List Char × List Char)
  | [] => none
  | c :: rest =>
    if c = ']' && rest.head? = some ']' then some ([], rest.tail)
    else if c = '\n' then none
    else (findClose rest).map (fun p => (c :: p.1, p.2))

/-- The replacement applied to one captured title:
`map.get(title) || sanitizeFilename(title)`. -/
def titleSubst (m : List Char → Option (List Char)) (t : List Char) : List Char :=
  match m t with
  | some v => if v = [] then sanitizeFilename t else v
  | none => sanitizeFilename t

/-- Fuel-indexed scan of `content.replace(/\[\[(.*?)\]\]/g, ...)`: at each
position the pattern is tried; a successful match emits
`[[` ++ substituted title ++ `]]` and resumes after the match, a failed
attempt emits one character and resumes at the next position.  The fuel
only needs to dominate the list length. -/
def rwFuel (m : List Char → Option (List Char)) : Nat → List Char → List Char
  | 0, l => l
  | _ + 1, [] => []
  | fuel + 1, c :: cs =>
    if c = '[' ∧ cs.head? = some '[' then
      match findClose cs.tail with
      | some (t, r) => '[' :: '[' :: (titleSubst m t ++ ']' :: ']' :: rwFuel m fuel r)
      | none => '[' :: rwFuel m fuel cs
    else c :: rwFuel m fuel cs

def processBacklinks (m : List Char → Option (List Char)) (l : List Char) : List Char :=
  rwFuel m l.length l

/-! ## Calendar model for JavaScript `Date`

Timestamps are modelled at day granularity: `dateCode y m d` is the
number of days from day 1-01-01 of the proleptic Gregorian calendar to
the civil date `(y, m, d)`, extended linearly in `d`.  This captures the
day-rollover semantics of `new Date(year, month - 1, day)`: for example
`new Date(2024, 1, 31)` denotes 2024-03-02.  (Sub-day resolution and DST
are irrelevant to the claims, which only compare timestamps.) -/

def isLeap (y : Nat) : Bool := y % 4 = 0 && (y % 100 ≠ 0 || y % 400 = 0)

def daysInMonth (y m : Nat) : Nat :=
  if m = 2 then (if isLeap y then 29 else 28)
  else if m = 4 || m = 6 || m = 9 || m = 11 then 30
  else 31

/-- Days contributed by the months `1 .. m-1` of year `y`. -/
def monthOffset (y : Nat) : Nat → Nat
  | 0 => 0
  | m + 1 => monthOffset y m + (if m = 0 then 0 else daysInMonth y m)

/-- Number of leap years among `0 .. y-1`. -/
def leapsBefore (y : Nat) : Nat := (y + 3) / 4 - (y + 99) / 100 + (y + 399) / 400

/-- Day number of the civil date `(y, m, d)`, linear in `d` (so `d` past
the month's end rolls over, exactly as in a JS `Date`). -/
def dateCode (y m d : Nat) : Int :=
  (365 * y + leapsBefore y + monthOffset y m : Int) + (d : Int) - 1

/-! ## DistillService (`src/services/distill-service.ts`) -/

/-- Digit test of the regex class `\d`. -/
def isDig (c : Char) : Bool := '0' ≤ c && c ≤ '9'

def digVal (c : Char) : Nat := c.toNat - 48

/-- `extractDateFromFilename`: matches `/^(\d{4})-(\d{2})-(\d{2})/`,
validates `1 ≤ month ≤ 12` and `1 ≤ day ≤ 31`, and builds
`new Date(year, month - 1, day)` (whose value is `dateCode`; it is never
`NaN` for integer arguments, so the `isNaN` guard never fires). -/
def extractDateFromFilename (name : List Char) : Option Int :=
  match name with
  | a :: b :: c :: d :: '-' :: e :: f :: '-' :: g :: h :: _ =>
    if isDig a && isDig b && isDig c && isDig d &&
       isDig e && isDig f && isDig g && isDig h then
      let y := ((digVal a * 10 + digVal b) * 10 + digVal c) * 10 + digVal d
      let mo := digVal e * 10 + digVal f
      let dy := digVal g * 10 + digVal h
      if 1 ≤ mo && mo ≤ 12 && 1 ≤ dy && dy ≤ 31 then
        some (dateCode y mo dy)
      else none
    else none
  | _ => none

/-- A markdown file of the vault listing: stable path, display basename. -/
structure RFile where
  path : List Char
  basename : List Char
deriving DecidableEq, Repr

/-- Host note store as consumed by `getRecentlyModifiedNotes`:
`vault.getMarkdownFiles()` and `vault.adapter.stat` (which may fail,
hence `Option`). -/
structure RecencyEnv where
  files : List RFile
  stat : List Char → Option Int

/-- `haystack.includes(needle)`: contiguous-substring test. -/
def containsSub (pat : List Char) : List Char → Bool
  | [] => pat.isEmpty
  | c :: rest => pat.isPrefixOf (c :: rest) || containsSub pat rest

/-- The excluded-folder test used both by `getRecentlyModifiedNotes` and
`applyFolderFilters`: `path.startsWith(folder + '/') ||
path.includes('/' + folder + '/')`. -/
def isExcludedPath (excludeFolders : List (List Char)) (p : List Char) : Bool :=
  excludeFolders.any fun folder =>
    (folder ++ ['/']).isPrefixOf p || containsSub (['/'] ++ folder ++ ['/']) p

/-- Inclusion test of the filter loop: filename-date rule first; whenever
it did not fire, the modification-time rule. -/
def recentIncluded (env : RecencyEnv) (startTime endTime : Int) (f : RFile) : Bool :=
  (match extractDateFromFilename f.basename with
   | some t => startTime ≤ t && t ≤ endTime
   | none => false) ||
  (match env.stat f.path with
   | some m => startTime ≤ m && m ≤ endTime
   | none => false)

/-- Sort key: filename date if present, else `stats?.mtime || 0`. -/
def effectiveTime (env : RecencyEnv) (f : RFile) : Int :=
  match extractDateFromFilename f.basename with
  | some t => t
  | none => match env.stat f.path with
    | some m => m
    | none => 0

/-- `getRecentlyModifiedNotes`, after the window `[startTime, endTime]`
has been computed from `daysBack`/`fromDate`/`toDate` (that computation
involves `Date.now()` and the local timezone and is abstracted into the
two window parameters). -/
def getRecentlyModifiedNotes (env : RecencyEnv) (startTime endTime : Int)
    (excludeFolders : List (List Char)) : List RFile :=
  let recentFiles := env.files.filter fun f =>
    !isExcludedPath excludeFolders f.path && recentIncluded env startTime endTime f
  let filesWithDates := recentFiles.map fun f => (f, effectiveTime env f)
  (List.insertionSort (fun a b : RFile × Int => b.2 ≤ a.2) filesWithDates).map (·.1)

/-! ### Journal sections (`getDateSections`) -/

/-- `content.split('\n')`. -/
def splitLines : List Char → List (List Char)
  | [] => [[]]
  | c :: rest =>
    match splitLines rest with
    | [] => [[c]]
    | h :: t => if c = '\n' then [] :: h :: t else (c :: h) :: t

/-- `lines.join('\n')`. -/
def joinLines : List (List Char) → List Char
  | [] => []
  | [l] => l
  | l :: ls => l ++ '\n' :: joinLines ls

/-- Whitespace for JS `trim` (ASCII part; the claims are insensitive to
the exotic Unicode space characters `trim` also strips). -/
def isWsChar (c : Char) : Bool :=
  c = ' ' || c = '\t' || c = '\n' || c = '\r' || c = '\x0b' || c = '\x0c'

def trimChars (l : List Char) : List Char :=
  ((l.dropWhile isWsChar).reverse.dropWhile isWsChar).reverse

/-- Loop state of `getDateSections`: accumulated sections, lines of the
current section, its date, and the `hasFoundFirstDate` flag. -/
structure SecState where
  sections : List (Option Int × List Char)
  currentSection : List (List Char)
  currentDate : Option Int
  hasFoundFirstDate : Bool

/-- One iteration of the line loop of `getDateSections`.  The header
parser `p` stands for `parseDateFromHeader` (whose value is determined
by the configured header format). -/
def sectionStep (p : List Char → Option Int) (st : SecState) (line : List Char) : SecState :=
  match p line with
  | some d =>
    let st1 :=
      if !st.hasFoundFirstDate then
        { st with
          sections :=
            if st.currentSection.length > 0 then
              st.sections ++ [(none, trimChars (joinLines st.currentSection))]
            else st.sections,
          hasFoundFirstDate := true }
      else if st.currentSection.length > 0 then
        { st with
          sections := st.sections ++ [(st.currentDate, trimChars (joinLines st.currentSection))] }
      else st
    { st1 with currentDate := some d, currentSection := [line] }
  | none => { st with currentSection := st.currentSection ++ [line] }

/-- `getDateSections(content)`: split into lines, run the loop, flush the
final section. -/
def getDateSections (p : List Char → Option Int) (content : List Char) :
    List (Option Int × List Char) :=
  let st := (splitLines content).foldl (sectionStep p) ⟨[], [], none, false⟩
  if st.currentSection.length > 0 then
    st.sections ++ [(st.currentDate, trimChars (joinLines st.currentSection))]
  else st.sections

/-! ### Reference resolution (`getLinkedNotes`)

Note identities are `Nat`.  The host services consumed by
`getLinkedNotes` are abstracted into `LinkEnv`:
`resolve` is `metadataCache.getFirstLinkpathDest(·, file.path)` for the
note at hand, `links`/`embeds` are the raw link texts of
`metadataCache.getFileCache(file)`, and `queryFiles` is
`getFilesFromDataviewQuery` (the external Dataview extension together
with its result-shape handling and internal dedup/resolution). -/

structure LinkEnv where
  resolve : List Char → Option Nat
  links : List (List Char)
  embeds : List (List Char)
  queryFiles : List Char → List Nat

/-- Detection regex of collection notes (literally: dash, space,
`\[[ x]\]`, space, `\[\[.*?\]\]`): the marker is a space or a lower-case
`x` (no `i` flag here), and the lazy `.*?` needs a closing `]]` on the
same line.  `test` only asks whether a match exists at some position. -/
def hasCheckboxLinks : List Char → Bool
  | [] => false
  | c0 :: rest =>
    (match c0 :: rest with
     | '-' :: ' ' :: '[' :: x :: ']' :: ' ' :: '[' :: '[' :: rest2 =>
       (x = ' ' || x = 'x') && (findClose rest2).isSome
     | _ => false) ||
    hasCheckboxLinks rest

/-- Fuel-indexed global scan of the extraction regex (literally: dash,
space, `\[x\]`, space, `\[\[(.*?)\]\]`, flags `gi`): the `i` flag makes
the checked marker match `x` or `X`; each successful match yields the
captured title and scanning resumes after the match, a failed attempt
resumes one position later. -/
def scanChecked : Nat → List Char → List (List Char)
  | 0, _ => []
  | _ + 1, [] => []
  | fuel + 1, l@(_ :: rest) =>
    match l with
    | '-' :: ' ' :: '[' :: x :: ']' :: ' ' :: '[' :: '[' :: rest2 =>
      if x = 'x' || x = 'X' then
        match findClose rest2 with
        | some (t, r) => t :: scanChecked fuel r
        | none => scanChecked fuel rest
      else scanChecked fuel rest
    | _ => scanChecked fuel rest

/-- `linkPath.includes('|') ? linkPath.split('|')[0] : linkPath`. -/
def stripAlias (t : List Char) : List Char := t.takeWhile (· ≠ '|')

/-- Append an id unless an entry with the same identity is present
(`!linkedFiles.some(existing => existing.path === file.path)`). -/
def addIfNew (acc : List Nat) (f : Nat) : List Nat :=
  if acc.contains f then acc else acc ++ [f]

/-- The back-tick character (U+0060). -/
def btChar : Char := Char.ofNat 96

/-- The literal "three back-ticks followed by `dataview`". -/
def dvMarker : List Char := List.replicate 3 btChar ++ ("dataview".toList)

/-- `content.includes("< three back-ticks >dataview")`. -/
def containsDataviewQuery (l : List Char) : Bool := containsSub dvMarker l

/-- First occurrence of three consecutive back-ticks: capture before it,
remainder after it. -/
def findTripleBt : List Char → Option (List Char × List Char)
  | [] => none
  | c :: rest =>
    if c = btChar && rest.head? = some btChar && rest.tail.head? = some btChar then
      some ([], rest.tail.tail)
    else (findTripleBt rest).map fun p => (c :: p.1, p.2)

/-- Fuel-indexed scan of `/<bt><bt><bt>dataview\s+([\s\S]*?)<bt><bt><bt>/g`
(`extractDataviewQueries`): after the marker the greedy `\s+` consumes
the maximal whitespace run (at least one character), the lazy capture
runs to the first closing triple back-tick; each query is trimmed and
kept when non-empty. -/
def extractDataviewQueries : Nat → List Char → List (List Char)
  | 0, _ => []
  | _ + 1, [] => []
  | fuel + 1, l@(_ :: rest) =>
    if dvMarker.isPrefixOf l then
      let after := l.drop dvMarker.length
      match after.head? with
      | some c2 =>
        if isWsChar c2 then
          match findTripleBt (after.dropWhile isWsChar) with
          | some (t, r) =>
            let q := trimChars t
            if q = [] then extractDataviewQueries fuel r
            else q :: extractDataviewQueries fuel r
          | none => extractDataviewQueries fuel rest
        else extractDataviewQueries fuel rest
      | none => extractDataviewQueries fuel rest
    else extractDataviewQueries fuel rest

/-- `getLinkedNotes`.  Collection notes short-circuit to the checked
items; otherwise Dataview results (when enabled), then the direct links
and embeds of the metadata cache, merged with dedup-on-add and a final
dedup pass. -/
def getLinkedNotes (useDataview : Bool) (env : LinkEnv) (content : List Char) : List Nat :=
  if hasCheckboxLinks content then
    (scanChecked content.length content).foldl
      (fun acc t =>
        match env.resolve (stripAlias t) with
        | some f => addIfNew acc f
        | none => acc)
      []
  else
    let dvFiles :=
      if useDataview && containsDataviewQuery content then
        (extractDataviewQueries content.length content).foldl
          (fun acc q => (env.queryFiles q).foldl addIfNew acc) []
      else []
    let withLinks := env.links.foldl
      (fun acc link =>
        match env.resolve link with
        | some f => addIfNew acc f
        | none => acc)
      dvFiles
    let withEmbeds := env.embeds.foldl
      (fun acc embed =>
        match env.resolve embed with
        | some f => addIfNew acc f
        | none => acc)
      withLinks
    withEmbeds.foldl addIfNew []

/-! ## ContextGatheringService (`src/services/openai-service.ts`)

`discoverLinkedNotes` is the link-discovery BFS.  Note identities are
`Nat`; `BfsEnv` abstracts the vault (`size i` is the character count of
`vault.read`) and `DistillService.getLinkedNotes` (`links i`, total —
the `try/catch` around it means a resolution failure behaves exactly
like an empty link list).  `name`/`path` are `file.basename` and
`file.path`.  The recursion is fuel-indexed; `none` means the fuel ran
out before the queue drained, so every theorem about a completed run is
conditioned on a `some` result. -/

structure BfsEnv where
  size : Nat → Nat
  links : Nat → List Nat
  name : Nat → List Char
  path : Nat → List Char

/-- `discoveredVia` provenance.  The source stores the free-text
`"root"` / `"linked from [[via]]"`; the discovering note's identity is
kept alongside its basename as a ghost so that provenance facts can be
stated without relying on basenames being unique. -/
inductive Prov where
  | root : Prov
  | linkedFrom (viaId : Nat) (viaName : List Char) : Prov
deriving DecidableEq, Repr

/-- One `DiscoveredNote` record (minus the identity, which keys it). -/
structure DRec where
  depth : Nat
  prov : Prov
  estimatedChars : Nat
  included : Bool
deriving DecidableEq, Repr

/-- A BFS queue entry `{file, depth, via}` (again with the ghost id of
the discovering note next to its basename). -/
structure BEntry where
  id : Nat
  depth : Nat
  viaId : Nat
  viaName : List Char
deriving DecidableEq, Repr

/-- BFS state: the insertion-ordered `discovered` map (association list,
keyed by identity), the running character total, the queue, and a ghost
trace `expanded` of the notes whose references have been resolved and
enqueued. -/
structure BfsState where
  disc : List (Nat × DRec)
  total : Nat
  queue : List BEntry
  expanded : List Nat
deriving Repr, DecidableEq

/-- `discovered.get(v)` on the insertion-ordered association list. -/
def lookupD (l : List (Nat × DRec)) (v : Nat) : Option DRec :=
  (l.find? fun p => p.1 = v).map (·.2)

/-- The `while (queue.length > 0)` loop of `discoverLinkedNotes`,
fuel-indexed.  Skip already-discovered identities; record-and-exclude on
budget overflow without traversing further; otherwise record-and-include,
and when `depth < maxDepth` resolve the references and enqueue the ones
not yet discovered. -/
def bfsLoop (env : BfsEnv) (maxDepth maxCharacters : Nat) :
    Nat → BfsState → Option BfsState
  | 0, _ => none
  | fuel + 1, st =>
    match st.queue with
    | [] => some st
    | e :: rest =>
      if (lookupD st.disc e.id).isSome then
        bfsLoop env maxDepth maxCharacters fuel { st with queue := rest }
      else
        let chars := env.size e.id
        if maxCharacters < st.total + chars then
          bfsLoop env maxDepth maxCharacters fuel
            { st with
              disc := st.disc ++ [(e.id, ⟨e.depth, .linkedFrom e.viaId e.viaName, chars, false⟩)],
              queue := rest }
        else
          let disc' := st.disc ++ [(e.id, ⟨e.depth, .linkedFrom e.viaId e.viaName, chars, true⟩)]
          let newEntries :=
            if e.depth < maxDepth then
              (env.links e.id).filterMap fun l =>
                if (lookupD disc' l).isSome then none
                else some ⟨l, e.depth + 1, e.id, env.name e.id⟩
            else []
          bfsLoop env maxDepth maxCharacters fuel
            { disc := disc',
              total := st.total + chars,
              queue := rest ++ newEntries,
              expanded := if e.depth < maxDepth then st.expanded ++ [e.id] else st.expanded }

/-- Initial state of a link-discovery run: the root is recorded as
included at depth 0 with provenance `root`, its size seeds the running
total, and its references are enqueued at depth 1 (the root is expanded
unconditionally). -/
def bfsInit (env : BfsEnv) (rootNote : Nat) : BfsState :=
  { disc := [(rootNote, ⟨0, .root, env.size rootNote, true⟩)],
    total := env.size rootNote,
    queue := (env.links rootNote).map fun l => ⟨l, 1, rootNote, env.name rootNote⟩,
    expanded := [rootNote] }

/-- `discoverLinkedNotes` up to (and including) the final loop state. -/
def discoverFull (env : BfsEnv) (rootNote maxDepth maxCharacters fuel : Nat) :
    Option BfsState :=
  bfsLoop env maxDepth maxCharacters fuel (bfsInit env rootNote)

/-- Comparator of the final
`sort((a, b) => depth difference, then basename localeCompare)`;
`localeCompare` is modelled as lexicographic comparison of the
basenames. -/
def dnLE (env : BfsEnv) (p q : Nat × DRec) : Prop :=
  p.2.depth < q.2.depth ∨ (p.2.depth = q.2.depth ∧ ¬ List.Lex (· < ·) (env.name q.1) (env.name p.1))

instance (env : BfsEnv) : DecidableRel (dnLE env) := fun _ _ => by
  unfold dnLE; infer_instance

/-- `discoverLinkedNotes`: run the BFS and sort the discovered records
for presentation. -/
def discoverLinkedNotes (env : BfsEnv) (rootNote maxDepth maxCharacters fuel : Nat) :
    Option (List (Nat × DRec)) :=
  (discoverFull env rootNote maxDepth maxCharacters fuel).map fun st =>
    List.insertionSort (dnLE env) st.disc

/-- `discoverRecentNotes`: wrap each recently modified file into a
`DiscoveredNote` at depth 0, provenance `"recent activity"`, included. -/
structure RNote where
  file : RFile
  depth : Nat
  estimatedChars : Nat
  included : Bool
deriving DecidableEq, Repr

def discoverRecentNotes (env : RecencyEnv) (sizeOf : List Char → Nat)
    (startTime endTime : Int) (excludeFolders : List (List Char)) : List RNote :=
  (getRecentlyModifiedNotes env startTime endTime excludeFolders).map fun f =>
    ⟨f, 0, sizeOf f.path, true⟩

/-! ### `gatherContext` configuration boundary -/

inductive SourceMode where
  | linkedNotes
  | recentActivity
deriving DecidableEq, Repr

/-- `ContextGatheringConfig` (fields consumed by `gatherContext`; the
time window is carried already resolved to `[startTime, endTime]`). -/
structure CtxConfig where
  sourceMode : SourceMode
  rootNote : Option Nat
  linkDepth : Nat
  maxCharacters : Nat
  timeWindow : Option (Int × Int)
  excludeFolders : List (List Char)

/-- `applyFolderFilters`: flip `included` off for notes under an
excluded folder. -/
def applyFolderFilters (env : BfsEnv) (excludeFolders : List (List Char))
    (notes : List (Nat × DRec)) : List (Nat × DRec) :=
  notes.map fun p =>
    if isExcludedPath excludeFolders (env.path p.1) && p.2.included then
      (p.1, { p.2 with included := false })
    else p

/-- `applyFolderFilters` on recent-activity records (their path is the
file's path). -/
def applyFolderFiltersR (excludeFolders : List (List Char)) (notes : List RNote) : List RNote :=
  notes.map fun n =>
    if isExcludedPath excludeFolders n.file.path && n.included then
      { n with included := false }
    else n

inductive GatherResult where
  | linked : List (Nat × DRec) → GatherResult
  | recent : List RNote → GatherResult

/-- `gatherContext`: the configuration boundary.  A missing root note in
linked-notes mode and a missing time window in recent-activity mode are
the only rejected configurations; everything else proceeds into
discovery.  (The downstream content aggregation is not modelled — no
claim mentions it; the returned notes are the `notes` field of
`GatheredContext`, i.e. the discovery output after folder filtering.)
The inner `Option` is fuel exhaustion of the BFS. -/
def gatherContext (env : BfsEnv) (renv : RecencyEnv) (sizeOf : List Char → Nat)
    (cfg : CtxConfig) (fuel : Nat) : Except (List Char) (Option GatherResult) :=
  match cfg.sourceMode with
  | .linkedNotes =>
    match cfg.rootNote with
    | none => .error ("Root note required for linked-notes mode".toList)
    | some r =>
      .ok ((discoverLinkedNotes env r cfg.linkDepth cfg.maxCharacters fuel).map fun notes =>
        .linked (applyFolderFilters env cfg.excludeFolders notes))
  | .recentActivity =>
    match cfg.timeWindow with
    | none => .error ("Time window required for recent-activity mode".toList)
    | some (s, e) =>
      .ok (some (.recent (applyFolderFiltersR cfg.excludeFolders
        (discoverRecentNotes renv sizeOf s e cfg.excludeFolders))))

/-- First-seen-order deduplication. -/
def dedupFirstSeen (l : List Nat) : List Nat := l.foldl addIfNew []

/-- Spec-side contract of collection-note resolution, written from the
spec's words ("return only references from checked items, deduplicated,
first-seen order") for comparison with the code's `getLinkedNotes`. -/
def checkedRefsSpec (resolve : List Char → Option Nat) (content : List Char) : List Nat :=
  dedupFirstSeen (((scanChecked content.length content).map stripAlias).filterMap resolve)

/-- Collection-mode trigger in the claim's words ("a checkbox list item
immediately followed by a note reference, checked or unchecked"): like
the code's detection scan `hasCheckboxLinks`, but accepting an
upper-case `X` marker as a checked item, for comparison with the code's
case-sensitive detection regex. -/
def hasCheckboxLinksCI : List Char → Bool
  | [] => false
  | c0 :: rest =>
    (match c0 :: rest with
     | '-' :: ' ' :: '[' :: x :: ']' :: ' ' :: '[' :: '[' :: rest2 =>
       (x = ' ' || x = 'x' || x = 'X') && (findClose rest2).isSome
     | _ => false) ||
    hasCheckboxLinksCI rest

/-! ## Invariants and auxiliary predicates used by the proofs -/

/-- No two adjacent closing brackets. -/
def noDD : List Char → Bool
  | [] => true
  | c :: cs => !(c = ']' && cs.head? = some ']') && noDD cs

/-- A string that re-matches as a bracket capture when wrapped in
`[[ ... ]]`: no newline, no `]]` inside, and not ending in `]`. -/
def okTitle (t : List Char) : Bool := !t.contains '\n' && noDD (t ++ [']'])

/-- `nf l`: scanning `l` for a lazy `]]` close hits a newline or the end
first (so a match attempt `[[l` fails). -/
def nf : List Char → Bool
  | [] => true
  | c :: cs =>
    if c = ']' ∧ cs.head? = some ']' then false
    else if c = '\n' then true
    else nf cs

/-- Sum of `estimatedChars` over the `included = true` records. -/
def sumIncluded (l : List (Nat × DRec)) : Nat :=
  (l.map fun p => if p.2.included then p.2.estimatedChars else 0).sum

/-- Reference-hop reachability restricted to expanded notes: a path
`rootNote = v₀ → v₁ → … → vₙ = v` where every `vᵢ` (`i < n`) is in `X`
and each arc follows the reference relation `env.links`.
`Reach env X rootNote v n` means such a path of length exactly `n`
exists. -/
inductive Reach (env : BfsEnv) (X : List Nat) (rootNote : Nat) : Nat → Nat → Prop where
  | base : Reach env X rootNote rootNote 0
  | step {u v n} : Reach env X rootNote u n → u ∈ X → v ∈ env.links u →
      Reach env X rootNote v (n + 1)

/-- Queue depth structure of BFS: the queue splits into a block at some
depth `d` followed by a block at depth `d + 1`, and every recorded depth
is at most `d`. -/
def QShape (st : BfsState) : Prop :=
  ∃ d q1 q2, st.queue = q1 ++ q2 ∧ (∀ e ∈ q1, e.depth = d) ∧
    (∀ e ∈ q2, e.depth = d + 1) ∧ (∀ p ∈ st.disc, p.2.depth ≤ d)

/-- Every reference of an expanded note is accounted for: recorded at a
depth at most one more than its parent's, or still queued at such a
depth.  The root's references are accounted for unconditionally (the
root is expanded regardless of `maxDepth`). -/
def ChildBound (env : BfsEnv) (maxDepth : Nat) (rootNote : Nat) (st : BfsState) : Prop :=
  (∀ w ∈ env.links rootNote,
    (∃ r, lookupD st.disc w = some r ∧ r.depth ≤ 1) ∨
    (∃ e ∈ st.queue, e.id = w ∧ e.depth ≤ 1)) ∧
  (∀ v r, lookupD st.disc v = some r → r.included = true → r.depth < maxDepth →
    ∀ w ∈ env.links v,
      (∃ r', lookupD st.disc w = some r' ∧ r'.depth ≤ r.depth + 1) ∨
      (∃ e ∈ st.queue, e.id = w ∧ e.depth ≤ r.depth + 1))

/-- The ghost `expanded` trace is exactly the root plus the included
records below the depth limit. -/
def ExpInv (maxDepth rootNote : Nat) (st : BfsState) : Prop :=
  ∀ v, v ∈ st.expanded ↔
    (v = rootNote ∨ ∃ r, lookupD st.disc v = some r ∧ r.included = true ∧ r.depth < maxDepth)

/-- Every recorded or queued depth is realized by a reference path
through expanded notes. -/
def ReachInv (env : BfsEnv) (rootNote : Nat) (st : BfsState) : Prop :=
  (∀ p ∈ st.disc, Reach env st.expanded rootNote p.1 p.2.depth) ∧
  (∀ e ∈ st.queue, Reach env st.expanded rootNote e.id e.depth)

/-- Provenance sanity: discovering notes are expanded, queued entries
come from expanded notes, and expanded notes are recorded as included. -/
def ProvInv (st : BfsState) : Prop :=
  (∀ p ∈ st.disc, ∀ u n, p.2.prov = .linkedFrom u n → u ∈ st.expanded) ∧
  (∀ e ∈ st.queue, e.viaId ∈ st.expanded) ∧
  (∀ v ∈ st.expanded, ∃ r, lookupD st.disc v = some r ∧ r.included = true)

/-- Budget bookkeeping: the running total is the sum of included sizes,
and it respects the budget whenever the root alone fits. -/
def BudgetInv (env : BfsEnv) (maxCharacters rootNote : Nat) (st : BfsState) : Prop :=
  st.total = sumIncluded st.disc ∧
  (env.size rootNote ≤ maxCharacters → st.total ≤ maxCharacters)

/-- The root's record never changes. -/
def RootInv (env : BfsEnv) (rootNote : Nat) (st : BfsState) : Prop :=
  lookupD st.disc rootNote = some ⟨0, .root, env.size rootNote, true⟩

/-- The successor state of the include branch of `bfsLoop` (spelled out
for the invariant-preservation lemmas; definitionally equal to the state
built inside `bfsLoop`). -/
def bfsIncludeNext (env : BfsEnv) (maxDepth : Nat) (st : BfsState) (e : BEntry)
    (rest : List BEntry) : BfsState :=
  ⟨st.disc ++ [(e.id, ⟨e.depth, .linkedFrom e.viaId e.viaName, env.size e.id, true⟩)],
    st.total + env.size e.id,
    rest ++
      (if e.depth < maxDepth then
        (env.links e.id).filterMap fun l =>
          if (lookupD
              (st.disc ++
                [(e.id, ⟨e.depth, .linkedFrom e.viaId e.viaName, env.size e.id, true⟩)])
              l).isSome then none
          else some ⟨l, e.depth + 1, e.id, env.name e.id⟩
      else []),
    if e.depth < maxDepth then st.expanded ++ [e.id] else st.expanded⟩

/-- The combined BFS loop invariant. -/
def BfsInv (env : BfsEnv) (maxDepth maxCharacters rootNote : Nat) (st : BfsState) : Prop :=
  (st.disc.map (·.1)).Nodup ∧ QShape st ∧ ChildBound env maxDepth rootNote st ∧
  ExpInv maxDepth rootNote st ∧ ReachInv env rootNote st ∧ ProvInv st ∧
  BudgetInv env maxCharacters rootNote st ∧ RootInv env rootNote st

/-- Invariant of the `getDateSections` line loop: before the first date
header nothing has been pushed and no date is pending; afterwards the
pending date is set; and pushed sections beyond the first are dated. -/
def SecInv (st : SecState) : Prop :=
  (st.hasFoundFirstDate = false → st.sections = [] ∧ st.currentDate = none) ∧
  (st.hasFoundFirstDate = true → st.currentDate ≠ none) ∧
  (∀ s ∈ st.sections.drop 1, s.1 ≠ none)

/-- The inclusion rule of the spec for recency discovery: filename date
inside the window, or modification time inside the window. -/
def windowRule (env : RecencyEnv) (startTime endTime : Int) (f : RFile) : Prop :=
  (∃ t, extractDateFromFilename f.basename = some t ∧ startTime ≤ t ∧ t ≤ endTime) ∨
  (∃ m, env.stat f.path = some m ∧ startTime ≤ m ∧ m ≤ endTime)

instance (env : RecencyEnv) (s e : Int) (f : RFile) : Decidable (windowRule env s e f) := by
  unfold windowRule
  have : ∀ o : Option Int, Decidable (∃ t, o = some t ∧ s ≤ t ∧ t ≤ e) := fun o =>
    match o with
    | none => .isFalse (by simp)
    | some t =>
      if h : s ≤ t ∧ t ≤ e then .isTrue ⟨t, rfl, h⟩ else .isFalse (by simpa using h)
  exact @instDecidableOr _ _ (this _) (this _)

/-! ## Concrete instances used by witnesses and counterexamples -/

/-- A note titled with the non-existent calendar day 2024-02-31; its
modification time is far in the past. -/
def rollFile : RFile := ⟨("2024-02-31 Meeting.md").toList, ("2024-02-31 Meeting").toList⟩

def rollEnv : RecencyEnv := { files := [rollFile], stat := fun _ => some 0 }

/-- A chained registration: title `A` maps to identifier `B`, which is
itself a registered title mapping to `C`. -/
def mChain : List Char → Option (List Char) := fun t =>
  if t = ['A'] then some ['B'] else if t = ['B'] then some ['C'] else none

/-- A registration produced the intended way: each value is the
sanitization of its key. -/
def mOk : List Char → Option (List Char) := fun t =>
  if t = ['A', '*'] then some (sanitizeFilename t) else none

/-- A two-note vault for the recency witness: one undated note modified
at time 50, one date-titled note. -/
def fWa : RFile := ⟨("a.md").toList, ("a").toList⟩

def fWb : RFile := ⟨("2024-03-05 b.md").toList, ("2024-03-05 b").toList⟩

def recEnvW : RecencyEnv :=
  { files := [fWa, fWb],
    stat := fun p => if p = ("a.md").toList then some 50 else some 0 }

/-- A collection note and a host environment for the C5 witness.  The
environment deliberately reports direct links, embeds and Dataview
results, which collection mode must ignore. -/
def collW : List Char := ("- [ ] [[A]]\n- [X] [[B]]\n- [x] [[C|alias]]").toList

def linkEnvW : LinkEnv :=
  { resolve := fun t =>
      if t = ("B").toList then some 3 else if t = ("C").toList then some 4 else some 9,
    links := [("Z").toList],
    embeds := [("Q").toList],
    queryFiles := fun _ => [7] }

/-- A note whose only checkbox reference item carries the upper-case
marker, followed by a plain direct reference on the next line. -/
def cexColl : List Char := ("- [X] [[B]]\n[[D]]").toList

/-- Host environment for the C5 counterexample: the metadata cache
reports the direct link to `D`. -/
def linkEnvCex : LinkEnv :=
  { resolve := fun t =>
      if t = ("B").toList then some 3 else if t = ("D").toList then some 5 else none,
    links := [("D").toList],
    embeds := [],
    queryFiles := fun _ => [] }

/-- A tiny vault for the BFS witnesses: note 0 (size 10) references
note 1 (size 10), which references note 2. -/
def bfsEnvW : BfsEnv :=
  { size := fun _ => 10,
    links := fun i => if i = 0 then [1] else if i = 1 then [2] else [],
    name := fun i => [Char.ofNat (65 + i % 26)],
    path := fun i => [Char.ofNat (65 + i % 26)] }

/-- The completed discovery output of `bfsEnvW` from root 0 with depth 2
and budget 100. -/
def outW : List (Nat × DRec) :=
  [(0, ⟨0, .root, 10, true⟩),
   (1, ⟨1, .linkedFrom 0 ['A'], 10, true⟩),
   (2, ⟨2, .linkedFrom 1 ['B'], 10, true⟩)]

/-- The final BFS state of the depth-2, budget-100 run on `bfsEnvW`. -/
def stW : BfsState :=
  ⟨[(0, ⟨0, .root, 10, true⟩),
    (1, ⟨1, .linkedFrom 0 ['A'], 10, true⟩),
    (2, ⟨2, .linkedFrom 1 ['B'], 10, true⟩)], 30, [], [0, 1]⟩

/-- The final BFS state of the depth-3, budget-100 run on `bfsEnvW`. -/
def stW3 : BfsState :=
  ⟨[(0, ⟨0, .root, 10, true⟩),
    (1, ⟨1, .linkedFrom 0 ['A'], 10, true⟩),
    (2, ⟨2, .linkedFrom 1 ['B'], 10, true⟩)], 30, [], [0, 1, 2]⟩

/-- The final BFS state of the budget-5 run on `bfsEnvW`: note 1 is
discovered but excluded (10 + 10 > 5) and is a leaf. -/
def stCex : BfsState :=
  ⟨[(0, ⟨0, .root, 10, true⟩), (1, ⟨1, .linkedFrom 0 ['A'], 10, false⟩)], 10, [], [0]⟩

/-- A configuration with zero max characters and a link depth outside
{1,2,3}, but a present root note. -/
def cfgZero : CtxConfig :=
  { sourceMode := .linkedNotes, rootNote := some 0, linkDepth := 5,
    maxCharacters := 0, timeWindow := none, excludeFolders := [] }

/-- A linked-notes configuration with no root note. -/
def cfgNoRoot : CtxConfig :=
  { sourceMode := .linkedNotes, rootNote := none, linkDepth := 2,
    maxCharacters := 100, timeWindow := none, excludeFolders := [] }

/-! ## Theorems -/

/-! ### ReferenceSanitizer: capture and rewrite lemmas (C8) -/

theorem head?_append_pair (t : List Char) (r : List Char) :
    (t ++ [']']).head? = (t ++ ']' :: ']' :: r).head? := by
  cases t <;> rfl

theorem findClose_sound :
    ∀ {l t : List Char} {r : List Char}, findClose l = some (t, r) →
      l = t ++ ']' :: ']' :: r ∧ okTitle t = true := by
  intro l
  induction l with
  | nil => intro t r h; cases h
  | cons c cs ih =>
    intro t r h
    unfold findClose at h
    by_cases hcc : (c = ']' && cs.head? = some ']') = true
    · rw [if_pos hcc] at h
      simp only [Bool.and_eq_true, decide_eq_true_eq] at hcc
      obtain ⟨hc, hh⟩ := hcc
      simp only [Option.some.injEq, Prod.mk.injEq] at h
      obtain ⟨ht, hr⟩ := h
      subst hc
      subst ht
      cases cs with
      | nil => simp at hh
      | cons d ds =>
        simp only [List.head?_cons, Option.some.injEq] at hh
        subst hh
        simp only [List.tail_cons] at hr
        subst hr
        exact ⟨rfl, by decide⟩
    · rw [if_neg hcc] at h
      by_cases hnl : c = '\n'
      · rw [if_pos hnl] at h
        cases h
      · rw [if_neg hnl] at h
        cases hf : findClose cs with
        | none => rw [hf] at h; cases h
        | some p =>
          obtain ⟨t2, r2⟩ := p
          rw [hf] at h
          simp only [Option.map_some', Option.some.injEq, Prod.mk.injEq] at h
          obtain ⟨ht, hr⟩ := h
          subst hr
          obtain ⟨hcs, hok⟩ := ih hf
          subst hcs
          subst ht
          refine ⟨by simp, ?_⟩
          unfold okTitle at hok ⊢
          simp only [Bool.and_eq_true, Bool.not_eq_true'] at hok ⊢
          obtain ⟨hnomem, hnodd⟩ := hok
          refine ⟨?_, ?_⟩
          · simp only [List.contains_cons, Bool.or_eq_false_iff]
            exact ⟨beq_eq_false_iff_ne.mpr fun hcon => hnl hcon.symm, hnomem⟩
          · show noDD (c :: (t2 ++ [']'])) = true
            unfold noDD
            simp only [Bool.and_eq_true, Bool.not_eq_true']
            refine ⟨?_, hnodd⟩
            rw [head?_append_pair t2 r2]
            simp only [Bool.not_eq_true] at hcc
            exact hcc

theorem findClose_complete :
    ∀ {t : List Char}, okTitle t = true → ∀ (r : List Char),
      findClose (t ++ ']' :: ']' :: r) = some (t, r) := by
  intro t
  induction t with
  | nil => intro _ r; rfl
  | cons c t2 ih =>
    intro hok r
    unfold okTitle at hok
    simp only [Bool.and_eq_true, Bool.not_eq_true'] at hok
    obtain ⟨hnomem, hnodd⟩ := hok
    simp only [List.contains_cons, Bool.or_eq_false_iff] at hnomem
    obtain ⟨hne, hnomem2⟩ := hnomem
    have hnodd2 : noDD (c :: (t2 ++ [']'])) = true := hnodd
    unfold noDD at hnodd2
    simp only [Bool.and_eq_true, Bool.not_eq_true'] at hnodd2
    obtain ⟨hpair, hnodd3⟩ := hnodd2
    have hok2 : okTitle t2 = true := by
      unfold okTitle
      simp only [Bool.and_eq_true, Bool.not_eq_true']
      exact ⟨hnomem2, hnodd3⟩
    show findClose (c :: (t2 ++ ']' :: ']' :: r)) = some (c :: t2, r)
    unfold findClose
    rw [if_neg, if_neg]
    · rw [ih hok2 r]
      rfl
    · exact fun hcon => (beq_eq_false_iff_ne.mp hne) hcon.symm
    · rw [← head?_append_pair t2 r]
      simp only [Bool.not_eq_true]
      exact hpair

theorem noDD_cons (c : Char) (cs : List Char) :
    noDD (c :: cs) = ((!(c = ']' && cs.head? = some ']')) && noDD cs) := rfl

theorem nf_cons_other {c : Char} {cs : List Char}
    (h1 : ¬(c = ']' ∧ cs.head? = some ']')) (h2 : c ≠ '\n') : nf (c :: cs) = nf cs := by
  conv_lhs => unfold nf
  rw [if_neg h1, if_neg h2]

theorem findClose_none_iff_nf : ∀ (l : List Char), findClose l = none ↔ nf l = true := by
  intro l
  induction l with
  | nil => simp [findClose, nf]
  | cons c cs ih =>
    unfold findClose nf
    by_cases h1 : c = ']' ∧ cs.head? = some ']'
    · rw [if_pos (by simpa using h1), if_pos h1]
      simp
    · rw [if_neg (by simpa using h1), if_neg h1]
      by_cases h2 : c = '\n'
      · rw [if_pos h2, if_pos h2]
        simp
      · rw [if_neg h2, if_neg h2]
        rw [Option.map_eq_none']
        exact ih

theorem charContains_iff {a : Char} : ∀ {l : List Char}, l.contains a = true ↔ a ∈ l := by
  intro l
  induction l with
  | nil => simp
  | cons c cs ih => simp [List.contains_cons, ih]

theorem mem_sanitize {c : Char} : ∀ {t : List Char}, c ∈ sanitizeFilename t →
    c ∈ t ∨ c = ' ' ∨ c = '-' := by
  intro t
  induction t with
  | nil => intro h; cases h
  | cons d ds ih =>
    intro h
    unfold sanitizeFilename at h
    rcases List.mem_append.mp h with h | h
    · split at h
      · simp only [List.mem_cons, List.not_mem_nil, or_false] at h
        rcases h with h | h | h
        · exact Or.inr (Or.inl h)
        · exact Or.inr (Or.inr h)
        · exact Or.inr (Or.inl h)
      · simp only [List.mem_singleton] at h
        exact Or.inl (h ▸ List.mem_cons_self _ _)
    · rcases ih h with h | h
      · exact Or.inl (List.mem_cons_of_mem _ h)
      · exact Or.inr h

theorem sanitize_clean : ∀ {t : List Char}, ∀ c ∈ sanitizeFilename t, illegalChar c = false := by
  intro t
  induction t with
  | nil => intro c h; cases h
  | cons d ds ih =>
    intro c h
    unfold sanitizeFilename at h
    rcases List.mem_append.mp h with h | h
    · split at h
      · simp only [List.mem_cons, List.not_mem_nil, or_false] at h
        rcases h with h | h | h <;> subst h <;> decide
      · rename_i hleg
        simp only [List.mem_singleton] at h
        subst h
        simpa using hleg
    · exact ih c h

theorem sanitize_of_clean : ∀ {t : List Char}, (∀ c ∈ t, illegalChar c = false) →
    sanitizeFilename t = t := by
  intro t
  induction t with
  | nil => intro _; rfl
  | cons d ds ih =>
    intro h
    unfold sanitizeFilename
    rw [if_neg (by simpa using h d (List.mem_cons_self _ _)), ih fun c hc =>
      h c (List.mem_cons_of_mem _ hc)]
    rfl

theorem sanitize_idem (t : List Char) :
    sanitizeFilename (sanitizeFilename t) = sanitizeFilename t :=
  sanitize_of_clean sanitize_clean

theorem head?_sanitize_ne_close {ds : List Char}
    (h : (ds ++ [']']).head? ≠ some ']') : (sanitizeFilename ds ++ [']']).head? ≠ some ']' := by
  cases ds with
  | nil => exact absurd rfl h
  | cons e es =>
    simp only [List.cons_append, List.head?_cons, Option.some.injEq] at h
    unfold sanitizeFilename
    by_cases hil : illegalChar e
    · rw [if_pos hil]
      simp
    · rw [if_neg hil]
      simpa using h

theorem noDD_sanitize : ∀ {t : List Char}, noDD (t ++ [']']) = true →
    noDD (sanitizeFilename t ++ [']']) = true := by
  intro t
  induction t with
  | nil => intro _; decide
  | cons d ds ih =>
    intro h
    have h' : noDD (d :: (ds ++ [']'])) = true := h
    unfold noDD at h'
    simp only [Bool.and_eq_true, Bool.not_eq_true'] at h'
    obtain ⟨hpair, hrest⟩ := h'
    have ihr := ih hrest
    unfold sanitizeFilename
    by_cases hil : illegalChar d
    · rw [if_pos hil]
      show noDD (' ' :: '-' :: ' ' :: (sanitizeFilename ds ++ [']'])) = true
      rw [noDD_cons, noDD_cons, noDD_cons]
      simp [ihr]
    · rw [if_neg hil]
      show noDD (d :: (sanitizeFilename ds ++ [']'])) = true
      rw [noDD_cons]
      simp only [Bool.and_eq_true, Bool.not_eq_true']
      refine ⟨?_, ihr⟩
      by_cases hds : (ds ++ [']']).head? = some ']'
      · have hd : ¬ d = ']' := by
          intro hd
          rw [hd] at hpair
          simp [hds] at hpair
        rw [decide_eq_false hd, Bool.false_and]
      · have hns := head?_sanitize_ne_close hds
        rw [decide_eq_false hns, Bool.and_false]

theorem okTitle_sanitize {t : List Char} (h : okTitle t = true) :
    okTitle (sanitizeFilename t) = true := by
  unfold okTitle at h ⊢
  simp only [Bool.and_eq_true, Bool.not_eq_true'] at h ⊢
  obtain ⟨hmem, hdd⟩ := h
  refine ⟨?_, noDD_sanitize hdd⟩
  by_cases hc : sanitizeFilename t |>.contains '\n'
  · exfalso
    rcases mem_sanitize (charContains_iff.mp hc) with hm | hm | hm
    · rw [(charContains_iff.mpr hm : t.contains '\n' = true)] at hmem
      cases hmem
    · cases hm
    · cases hm
  · simpa using hc

theorem titleSubst_eq {m : List Char → Option (List Char)}
    (Hm : ∀ t v, m t = some v → v = sanitizeFilename t) (t : List Char) :
    titleSubst m t = sanitizeFilename t := by
  cases hm : m t with
  | none =>
    unfold titleSubst
    rw [hm]
  | some v =>
    have hv := Hm t v hm
    subst hv
    unfold titleSubst
    rw [hm]
    show (if sanitizeFilename t = [] then sanitizeFilename t else sanitizeFilename t) =
      sanitizeFilename t
    split <;> rfl

theorem rwFuel_irrel (m : List Char → Option (List Char)) :
    ∀ (fuel fuel' : Nat) (l : List Char), l.length ≤ fuel → l.length ≤ fuel' →
      rwFuel m fuel l = rwFuel m fuel' l := by
  intro fuel
  induction fuel with
  | zero =>
    intro fuel' l h _
    have : l = [] := List.eq_nil_of_length_eq_zero (Nat.le_zero.mp h)
    subst this
    cases fuel' <;> rfl
  | succ fuel ih =>
    intro fuel' l h h'
    cases l with
    | nil => cases fuel' <;> rfl
    | cons c cs =>
      cases fuel' with
      | zero => simp at h'
      | succ fuel2 =>
        show rwFuel m (fuel + 1) (c :: cs) = rwFuel m (fuel2 + 1) (c :: cs)
        unfold rwFuel
        simp only [List.length_cons, Nat.add_le_add_iff_right] at h h'
        by_cases hcc : c = '[' ∧ cs.head? = some '['
        · rw [if_pos hcc, if_pos hcc]
          cases hf : findClose cs.tail with
          | none =>
            simp only [hf]
            rw [ih fuel2 cs h h']
          | some p =>
            obtain ⟨t, r⟩ := p
            simp only [hf]
            have hlen : r.length ≤ cs.length := by
              obtain ⟨heq, _⟩ := findClose_sound hf
              have h1 : cs.tail.length ≤ cs.length := by
                cases cs <;> simp
              rw [heq] at h1
              simp only [List.length_append, List.length_cons] at h1
              omega
            rw [ih fuel2 r (le_trans hlen h) (le_trans hlen h')]
        · rw [if_neg hcc, if_neg hcc]
          rw [ih fuel2 cs h h']

theorem pb_cons_match {m : List Char → Option (List Char)} {rest t r : List Char}
    (hf : findClose rest = some (t, r)) :
    processBacklinks m ('[' :: '[' :: rest) =
      '[' :: '[' :: (titleSubst m t ++ ']' :: ']' :: processBacklinks m r) := by
  show rwFuel m (rest.length + 1 + 1) ('[' :: '[' :: rest) = _
  unfold rwFuel
  rw [if_pos ⟨rfl, rfl⟩]
  show (match findClose rest with
    | some (t, r) => '[' :: '[' :: (titleSubst m t ++ ']' :: ']' :: rwFuel m (rest.length + 1) r)
    | none => '[' :: rwFuel m (rest.length + 1) ('[' :: rest)) = _
  rw [hf]
  have hlen : r.length ≤ rest.length := by
    obtain ⟨heq, _⟩ := findClose_sound hf
    rw [heq]
    simp only [List.length_append, List.length_cons]
    omega
  show '[' :: '[' :: (titleSubst m t ++ ']' :: ']' :: rwFuel m (rest.length + 1) r) = _
  rw [rwFuel_irrel m (rest.length + 1) r.length r (by omega) (le_refl _)]
  rfl

theorem pb_cons_nomatch {m : List Char → Option (List Char)} {rest : List Char}
    (hf : findClose rest = none) :
    processBacklinks m ('[' :: '[' :: rest) = '[' :: processBacklinks m ('[' :: rest) := by
  show rwFuel m (rest.length + 1 + 1) ('[' :: '[' :: rest) = _
  unfold rwFuel
  rw [if_pos ⟨rfl, rfl⟩]
  show (match findClose rest with
    | some (t, r) => '[' :: '[' :: (titleSubst m t ++ ']' :: ']' :: rwFuel m (rest.length + 1) r)
    | none => '[' :: rwFuel m (rest.length + 1) ('[' :: rest)) = _
  rw [hf]
  rfl

theorem pb_cons_char {m : List Char → Option (List Char)} {c : Char} {cs : List Char}
    (h : ¬(c = '[' ∧ cs.head? = some '[')) :
    processBacklinks m (c :: cs) = c :: processBacklinks m cs := by
  show rwFuel m (cs.length + 1) (c :: cs) = _
  unfold rwFuel
  rw [if_neg h]
  rfl

theorem pb_head (m : List Char → Option (List Char)) (l : List Char) :
    (processBacklinks m l).head? = l.head? := by
  cases l with
  | nil => rfl
  | cons c cs =>
    by_cases hcc : c = '[' ∧ cs.head? = some '['
    · obtain ⟨hc, hh⟩ := hcc
      subst hc
      cases cs with
      | nil => simp at hh
      | cons c2 rest =>
        simp only [List.head?_cons, Option.some.injEq] at hh
        subst hh
        cases hf : findClose rest with
        | some p =>
          obtain ⟨t, r⟩ := p
          rw [pb_cons_match hf]
          rfl
        | none =>
          rw [pb_cons_nomatch hf]
          rfl
    · rw [pb_cons_char hcc]
      rfl

theorem nf_pb (m : List Char → Option (List Char)) :
    ∀ (n : Nat) (l : List Char), l.length ≤ n → nf l = true →
      nf (processBacklinks m l) = true := by
  intro n
  induction n with
  | zero =>
    intro l h hnf
    have : l = [] := List.eq_nil_of_length_eq_zero (Nat.le_zero.mp h)
    subst this
    exact hnf
  | succ n ih =>
    intro l hlen hnf
    cases l with
    | nil => exact hnf
    | cons c cs =>
      simp only [List.length_cons, Nat.add_le_add_iff_right] at hlen
      by_cases hcc : c = '[' ∧ cs.head? = some '['
      · obtain ⟨hc, hh⟩ := hcc
        subst hc
        cases cs with
        | nil => simp at hh
        | cons c2 rest =>
          simp only [List.head?_cons, Option.some.injEq] at hh
          subst hh
          have hnfr : nf rest = true := by
            rw [nf_cons_other (by simp) (by decide), nf_cons_other (by simp) (by decide)] at hnf
            exact hnf
          have hfc : findClose rest = none := (findClose_none_iff_nf rest).mpr hnfr
          rw [pb_cons_nomatch hfc]
          rw [nf_cons_other (by rw [pb_head]; simp) (by decide)]
          refine ih ('[' :: rest) (by simp at hlen ⊢; omega) ?_
          rw [nf_cons_other (by simp) (by decide)]
          exact hnfr
      · rw [pb_cons_char hcc]
        by_cases h1 : c = ']' ∧ cs.head? = some ']'
        · unfold nf at hnf
          rw [if_pos h1] at hnf
          cases hnf
        · by_cases h2 : c = '\n'
          · subst h2
            unfold nf
            rw [if_neg (by simp), if_pos rfl]
          · have h1' : ¬(c = ']' ∧ (processBacklinks m cs).head? = some ']') := by
              rw [pb_head]
              exact h1
            rw [nf_cons_other h1' h2]
            rw [nf_cons_other h1 h2] at hnf
            exact ih cs hlen hnf

theorem pb_idem_aux {m : List Char → Option (List Char)}
    (Hm : ∀ t v, m t = some v → v = sanitizeFilename t) :
    ∀ (n : Nat) (l : List Char), l.length ≤ n →
      processBacklinks m (processBacklinks m l) = processBacklinks m l ∧
      (nf l = true →
        processBacklinks m ('[' :: processBacklinks m l) = '[' :: processBacklinks m l) := by
  intro n
  induction n with
  | zero =>
    intro l h
    have : l = [] := List.eq_nil_of_length_eq_zero (Nat.le_zero.mp h)
    subst this
    constructor
    · rfl
    · intro _
      rw [show processBacklinks m [] = [] from rfl,
        @pb_cons_char m '[' [] (by simp)]
      rfl
  | succ n ih =>
    intro l hlen
    have hA : processBacklinks m (processBacklinks m l) = processBacklinks m l := by
      cases l with
      | nil => rfl
      | cons c cs =>
        simp only [List.length_cons, Nat.add_le_add_iff_right] at hlen
        by_cases hcc : c = '[' ∧ cs.head? = some '['
        · obtain ⟨hc, hh⟩ := hcc
          subst hc
          cases cs with
          | nil => simp at hh
          | cons c2 rest =>
            simp only [List.head?_cons, Option.some.injEq] at hh
            subst hh
            simp only [List.length_cons, Nat.add_le_add_iff_right] at hlen
            cases hf : findClose rest with
            | some p =>
              obtain ⟨t, r⟩ := p
              obtain ⟨hrest, hok⟩ := findClose_sound hf
              rw [pb_cons_match hf]
              have hst : titleSubst m t = sanitizeFilename t := titleSubst_eq Hm t
              have hok2 : okTitle (titleSubst m t) = true := by
                rw [hst]
                exact okTitle_sanitize hok
              rw [pb_cons_match (findClose_complete hok2 (processBacklinks m r))]
              have h1 : titleSubst m (titleSubst m t) = titleSubst m t := by
                rw [hst, titleSubst_eq Hm, sanitize_idem]
              have hrl : r.length ≤ n := by
                rw [hrest] at hlen
                simp only [List.length_append, List.length_cons] at hlen
                omega
              rw [h1, (ih r hrl).1]
            | none =>
              rw [pb_cons_nomatch hf]
              refine (ih ('[' :: rest) (by simpa using hlen)).2 ?_
              rw [nf_cons_other (by simp) (by decide)]
              exact (findClose_none_iff_nf rest).mp hf
        · rw [pb_cons_char hcc]
          have hcc2 : ¬(c = '[' ∧ (processBacklinks m cs).head? = some '[') := by
            rw [pb_head]
            exact hcc
          rw [pb_cons_char hcc2, (ih cs hlen).1]
    refine ⟨hA, fun hnf => ?_⟩
    cases hX : processBacklinks m l with
    | nil =>
      rw [pb_cons_char (by simp)]
      rfl
    | cons x X2 =>
      by_cases hx : x = '['
      · subst hx
        have hnfX : nf (processBacklinks m l) = true := nf_pb m l.length l (le_refl _) hnf
        rw [hX] at hnfX
        rw [nf_cons_other (by simp) (by decide)] at hnfX
        have hfc : findClose X2 = none := (findClose_none_iff_nf X2).mpr hnfX
        rw [pb_cons_nomatch hfc]
        rw [hX] at hA
        rw [hA]
      · rw [pb_cons_char (by simp [hx])]
        rw [hX] at hA
        rw [hA]

/-! ### Association-list and bookkeeping lemmas -/

theorem lookupD_append_left {l l' : List (Nat × DRec)} {v : Nat} {r : DRec}
    (h : lookupD l v = some r) : lookupD (l ++ l') v = some r := by
  unfold lookupD at h ⊢
  cases hf : l.find? (fun p => p.1 = v) with
  | none => rw [hf] at h; cases h
  | some p =>
    rw [hf] at h
    rw [List.find?_append, hf]
    exact h

theorem lookupD_nil {v : Nat} : lookupD [] v = none := rfl

theorem lookupD_single {k v : Nat} {r : DRec} :
    lookupD [(k, r)] v = if k = v then some r else none := by
  unfold lookupD
  by_cases h : k = v
  · simp [List.find?, h]
  · simp [List.find?, h]

theorem lookupD_append_of_none {l l' : List (Nat × DRec)} {v : Nat}
    (h : lookupD l v = none) : lookupD (l ++ l') v = lookupD l' v := by
  unfold lookupD at h ⊢
  cases hf : l.find? (fun p => p.1 = v) with
  | none =>
    rw [List.find?_append, hf]
    rfl
  | some p => rw [hf] at h; cases h

theorem lookupD_mem {l : List (Nat × DRec)} {v : Nat} {r : DRec}
    (h : lookupD l v = some r) : (v, r) ∈ l := by
  unfold lookupD at h
  cases hf : l.find? (fun p => p.1 = v) with
  | none => rw [hf] at h; cases h
  | some p =>
    rw [hf] at h
    obtain ⟨p1, p2⟩ := p
    have hp : p1 = v := by simpa using List.find?_some hf
    have hm := List.mem_of_find?_eq_some hf
    simp only [Option.map_some', Option.some.injEq] at h
    subst hp
    subst h
    exact hm

theorem lookupD_eq_none_iff {l : List (Nat × DRec)} {v : Nat} :
    lookupD l v = none ↔ ∀ p ∈ l, p.1 ≠ v := by
  unfold lookupD
  rw [Option.map_eq_none', List.find?_eq_none]
  simp

theorem sumIncluded_append (l l' : List (Nat × DRec)) :
    sumIncluded (l ++ l') = sumIncluded l + sumIncluded l' := by
  unfold sumIncluded
  rw [List.map_append, List.sum_append]

theorem Reach.mono {env : BfsEnv} {X X' : List Nat} {rootNote v n : Nat}
    (hs : ∀ u ∈ X, u ∈ X') (h : Reach env X rootNote v n) : Reach env X' rootNote v n := by
  induction h with
  | base => exact .base
  | step hu hX hl ih => exact .step ih (hs _ hX) hl

/-! ### Queue-shape lemmas -/

theorem QShape_step {st : BfsState} {e : BEntry} {rest : List BEntry}
    (h : QShape st) (hq : st.queue = e :: rest)
    (new : List BEntry) (hnew : ∀ x ∈ new, x.depth = e.depth + 1)
    (extra : List (Nat × DRec)) (hextra : ∀ p ∈ extra, p.2.depth = e.depth)
    (t' : Nat) (E' : List Nat) :
    QShape ⟨st.disc ++ extra, t', rest ++ new, E'⟩ := by
  obtain ⟨d, q1, q2, hsplit, h1, h2, h3⟩ := h
  rw [hq] at hsplit
  cases q1 with
  | nil =>
    simp only [List.nil_append] at hsplit
    have he : e.depth = d + 1 := h2 e (by rw [← hsplit]; exact List.mem_cons_self _ _)
    have hrest : ∀ x ∈ rest, x.depth = d + 1 := fun x hx =>
      h2 x (by rw [← hsplit]; exact List.mem_cons_of_mem _ hx)
    refine ⟨d + 1, rest, new, rfl, hrest, ?_, ?_⟩
    · intro x hx
      rw [hnew x hx, he]
    · intro p hp
      rcases List.mem_append.mp hp with hp | hp
      · exact le_trans (h3 p hp) (Nat.le_succ d)
      · rw [hextra p hp, he]
  | cons a q1' =>
    simp only [List.cons_append, List.cons.injEq] at hsplit
    obtain ⟨hae, hrest⟩ := hsplit
    have he : e.depth = d := by rw [hae]; exact h1 a (List.mem_cons_self _ _)
    refine ⟨d, q1', q2 ++ new, ?_, ?_, ?_, ?_⟩
    · rw [hrest, List.append_assoc]
    · intro x hx
      exact h1 x (List.mem_cons_of_mem _ hx)
    · intro x hx
      rcases List.mem_append.mp hx with hx | hx
      · exact h2 x hx
      · rw [hnew x hx, he]
    · intro p hp
      rcases List.mem_append.mp hp with hp | hp
      · exact h3 p hp
      · rw [hextra p hp, he]

theorem QShape_head_bound {st : BfsState} {e : BEntry} {rest : List BEntry}
    (h : QShape st) (hq : st.queue = e :: rest) :
    ∀ p ∈ st.disc, p.2.depth ≤ e.depth := by
  obtain ⟨d, q1, q2, hsplit, h1, h2, h3⟩ := h
  rw [hq] at hsplit
  intro p hp
  cases q1 with
  | nil =>
    simp only [List.nil_append] at hsplit
    have he : e.depth = d + 1 := h2 e (by rw [← hsplit]; exact List.mem_cons_self _ _)
    rw [he]
    exact le_trans (h3 p hp) (Nat.le_succ d)
  | cons a q1' =>
    simp only [List.cons_append, List.cons.injEq] at hsplit
    have he : e.depth = d := by rw [hsplit.1]; exact h1 a (List.mem_cons_self _ _)
    rw [he]
    exact h3 p hp

theorem QShape_rest_ge {st : BfsState} {e : BEntry} {rest : List BEntry} {m : Nat}
    (h : QShape st) (hq : st.queue = e :: rest) (hm : m ≤ e.depth) :
    ∀ x ∈ rest, m ≤ x.depth := by
  obtain ⟨d, q1, q2, hsplit, h1, h2, h3⟩ := h
  rw [hq] at hsplit
  intro x hx
  cases q1 with
  | nil =>
    simp only [List.nil_append] at hsplit
    have hx2 : x.depth = d + 1 := h2 x (by rw [← hsplit]; exact List.mem_cons_of_mem _ hx)
    have he : e.depth = d + 1 := h2 e (by rw [← hsplit]; exact List.mem_cons_self _ _)
    rw [hx2, ← he]
    exact hm
  | cons a q1' =>
    simp only [List.cons_append, List.cons.injEq] at hsplit
    obtain ⟨hae, hrest⟩ := hsplit
    have he : e.depth = d := by rw [hae]; exact h1 a (List.mem_cons_self _ _)
    have : x ∈ q1' ++ q2 := by rw [← hrest]; exact hx
    rcases List.mem_append.mp this with hx' | hx'
    · rw [h1 x (List.mem_cons_of_mem _ hx')]
      exact le_trans hm (le_of_eq he)
    · rw [h2 x hx']
      exact le_trans hm (he ▸ Nat.le_succ d)

theorem lookupD_snoc_ne {l : List (Nat × DRec)} {v k : Nat} {r : DRec} (h : v ≠ k) :
    lookupD (l ++ [(k, r)]) v = lookupD l v := by
  cases hf : lookupD l v with
  | some r' => exact lookupD_append_left hf
  | none =>
    rw [lookupD_append_of_none hf, lookupD_single, if_neg (fun hk => h hk.symm)]

theorem lookupD_snoc_self {l : List (Nat × DRec)} {k : Nat} {r : DRec}
    (h : lookupD l k = none) : lookupD (l ++ [(k, r)]) k = some r := by
  rw [lookupD_append_of_none h, lookupD_single, if_pos rfl]

theorem nodup_snoc_key {l : List (Nat × DRec)} {k : Nat} {r : DRec}
    (hn : (l.map (·.1)).Nodup) (h : lookupD l k = none) :
    (((l ++ [(k, r)]).map (·.1))).Nodup := by
  rw [List.map_append]
  rw [List.nodup_append]
  refine ⟨hn, List.nodup_singleton _, ?_⟩
  intro a ha hb
  simp only [List.map_cons, List.map_nil, List.mem_singleton] at hb
  subst hb
  rw [List.mem_map] at ha
  obtain ⟨p, hp, hpa⟩ := ha
  exact (lookupD_eq_none_iff.mp h p hp) hpa

/-! ### BFS branch-step lemmas for the combined invariant -/

theorem BfsInv_step_skip {env : BfsEnv} {maxDepth maxCharacters rootNote : Nat}
    {st : BfsState} {e : BEntry} {rest : List BEntry}
    (inv : BfsInv env maxDepth maxCharacters rootNote st) (hq : st.queue = e :: rest)
    (hd : (lookupD st.disc e.id).isSome = true) :
    BfsInv env maxDepth maxCharacters rootNote { st with queue := rest } := by
  obtain ⟨hnd, hqs, ⟨hcbr, hcb⟩, hexp, ⟨hrd, hrq⟩, ⟨hp1, hp2, hp3⟩, hbud, hroot⟩ := inv
  obtain ⟨re, hre⟩ := Option.isSome_iff_exists.mp hd
  have hhead := QShape_head_bound hqs hq
  have hwit : ∀ (w b : Nat),
      ((∃ r', lookupD st.disc w = some r' ∧ r'.depth ≤ b) ∨
        (∃ x ∈ st.queue, x.id = w ∧ x.depth ≤ b)) →
      ((∃ r', lookupD st.disc w = some r' ∧ r'.depth ≤ b) ∨
        (∃ x ∈ rest, x.id = w ∧ x.depth ≤ b)) := by
    intro w b hb
    rcases hb with hb | ⟨x, hx, hxw, hxd⟩
    · exact Or.inl hb
    · rw [hq] at hx
      rcases List.mem_cons.mp hx with hx | hx
      · rw [hx] at hxw hxd
        refine Or.inl ⟨re, by rw [← hxw]; exact hre, ?_⟩
        calc re.depth ≤ e.depth := hhead _ (lookupD_mem hre)
          _ ≤ b := hxd
      · exact Or.inr ⟨x, hx, hxw, hxd⟩
  refine ⟨hnd, ?_, ⟨fun w hw => hwit w 1 (hcbr w hw),
    fun v r hv hi hdep w hw => hwit w (r.depth + 1) (hcb v r hv hi hdep w hw)⟩,
    hexp, ⟨hrd, ?_⟩, ⟨hp1, ?_, hp3⟩, hbud, hroot⟩
  · have := QShape_step hqs hq [] (by simp) [] (by simp) st.total st.expanded
    simpa using this
  · intro x hx
    exact hrq x (by rw [hq]; exact List.mem_cons_of_mem _ hx)
  · intro x hx
    exact hp2 x (by rw [hq]; exact List.mem_cons_of_mem _ hx)

theorem BfsInv_step_exclude {env : BfsEnv} {maxDepth maxCharacters rootNote : Nat}
    {st : BfsState} {e : BEntry} {rest : List BEntry}
    (inv : BfsInv env maxDepth maxCharacters rootNote st) (hq : st.queue = e :: rest)
    (hd : lookupD st.disc e.id = none) :
    BfsInv env maxDepth maxCharacters rootNote
      ⟨st.disc ++ [(e.id, ⟨e.depth, .linkedFrom e.viaId e.viaName, env.size e.id, false⟩)],
        st.total, rest, st.expanded⟩ := by
  obtain ⟨hnd, hqs, ⟨hcbr, hcb⟩, hexp, ⟨hrd, hrq⟩, ⟨hp1, hp2, hp3⟩, ⟨hb1, hb2⟩, hroot⟩ := inv
  have hhead := QShape_head_bound hqs hq
  have heq : e ∈ st.queue := by rw [hq]; exact List.mem_cons_self _ _
  have henr : e.id ≠ rootNote := by
    intro hcon
    rw [hcon] at hd
    rw [hroot] at hd
    cases hd
  have hlook : lookupD
      (st.disc ++ [(e.id, ⟨e.depth, .linkedFrom e.viaId e.viaName, env.size e.id, false⟩)])
      e.id = some ⟨e.depth, .linkedFrom e.viaId e.viaName, env.size e.id, false⟩ :=
    lookupD_snoc_self hd
  have hwit : ∀ (w b : Nat),
      ((∃ r', lookupD st.disc w = some r' ∧ r'.depth ≤ b) ∨
        (∃ x ∈ st.queue, x.id = w ∧ x.depth ≤ b)) →
      ((∃ r', lookupD
          (st.disc ++ [(e.id, ⟨e.depth, .linkedFrom e.viaId e.viaName, env.size e.id, false⟩)])
          w = some r' ∧ r'.depth ≤ b) ∨
        (∃ x ∈ rest, x.id = w ∧ x.depth ≤ b)) := by
    intro w b hb
    rcases hb with ⟨r', hr', hrd'⟩ | ⟨x, hx, hxw, hxd⟩
    · exact Or.inl ⟨r', lookupD_append_left hr', hrd'⟩
    · rw [hq] at hx
      rcases List.mem_cons.mp hx with hx | hx
      · rw [hx] at hxw hxd
        rw [← hxw]
        exact Or.inl ⟨_, hlook, hxd⟩
      · exact Or.inr ⟨x, hx, hxw, hxd⟩
  refine ⟨nodup_snoc_key hnd hd, ?_, ⟨fun w hw => hwit w 1 (hcbr w hw), ?_⟩, ?_, ⟨?_, ?_⟩,
    ⟨?_, ?_, ?_⟩, ⟨?_, ?_⟩, lookupD_append_left hroot⟩
  · have := QShape_step hqs hq [] (by simp)
      [(e.id, ⟨e.depth, .linkedFrom e.viaId e.viaName, env.size e.id, false⟩)]
      (by intro p hp; simp only [List.mem_singleton] at hp; rw [hp]) st.total st.expanded
    simpa using this
  · -- general ChildBound clause
    intro v r hv hi hdep w hw
    by_cases hv' : v = e.id
    · rw [hv'] at hv
      rw [hlook] at hv
      cases hv
      cases hi
    · rw [lookupD_snoc_ne hv'] at hv
      exact hwit w (r.depth + 1) (hcb v r hv hi hdep w hw)
  · -- ExpInv
    intro v
    by_cases hv : v = e.id
    · subst hv
      constructor
      · intro hmem
        obtain ⟨r, hr, _⟩ := hp3 e.id hmem
        rw [hd] at hr
        cases hr
      · intro hcon
        rcases hcon with hcon | ⟨r, hr, hi, _⟩
        · exact absurd hcon henr
        · rw [hlook] at hr
          cases hr
          cases hi
    · rw [show lookupD
          (st.disc ++ [(e.id, ⟨e.depth, .linkedFrom e.viaId e.viaName, env.size e.id, false⟩)])
          v = lookupD st.disc v from lookupD_snoc_ne hv]
      exact hexp v
  · -- ReachInv, records
    intro p hp
    rcases List.mem_append.mp hp with hp | hp
    · exact hrd p hp
    · simp only [List.mem_singleton] at hp
      rw [hp]
      exact hrq e heq
  · -- ReachInv, queue
    intro x hx
    exact hrq x (by rw [hq]; exact List.mem_cons_of_mem _ hx)
  · -- ProvInv 1
    intro p hp u n hpr
    rcases List.mem_append.mp hp with hp | hp
    · exact hp1 p hp u n hpr
    · simp only [List.mem_singleton] at hp
      rw [hp] at hpr
      simp only [Prov.linkedFrom.injEq] at hpr
      rw [← hpr.1]
      exact hp2 e heq
  · -- ProvInv 2
    intro x hx
    exact hp2 x (by rw [hq]; exact List.mem_cons_of_mem _ hx)
  · -- ProvInv 3
    intro v hv
    obtain ⟨r, hr, hi⟩ := hp3 v hv
    exact ⟨r, lookupD_append_left hr, hi⟩
  · -- BudgetInv 1
    rw [sumIncluded_append]
    simpa [sumIncluded] using hb1
  · exact hb2

theorem BfsInv_step_include {env : BfsEnv} {maxDepth maxCharacters rootNote : Nat}
    {st : BfsState} {e : BEntry} {rest : List BEntry}
    (inv : BfsInv env maxDepth maxCharacters rootNote st) (hq : st.queue = e :: rest)
    (hd : lookupD st.disc e.id = none)
    (hb : ¬ maxCharacters < st.total + env.size e.id) :
    BfsInv env maxDepth maxCharacters rootNote (bfsIncludeNext env maxDepth st e rest) := by
  obtain ⟨hnd, hqs, ⟨hcbr, hcb⟩, hexp, ⟨hrd, hrq⟩, ⟨hp1, hp2, hp3⟩, ⟨hb1, hb2⟩, hroot⟩ := inv
  have hhead := QShape_head_bound hqs hq
  have heq : e ∈ st.queue := by rw [hq]; exact List.mem_cons_self _ _
  have henr : e.id ≠ rootNote := by
    intro hcon
    rw [hcon, hroot] at hd
    cases hd
  have henx : e.id ∉ st.expanded := by
    intro hmem
    obtain ⟨r, hr, _⟩ := hp3 e.id hmem
    rw [hd] at hr
    cases hr
  unfold bfsIncludeNext
  set rec : DRec := ⟨e.depth, .linkedFrom e.viaId e.viaName, env.size e.id, true⟩ with hrec
  set disc' : List (Nat × DRec) := st.disc ++ [(e.id, rec)] with hdisc'
  set newEntries : List BEntry :=
    (if e.depth < maxDepth then
      (env.links e.id).filterMap fun l =>
        if (lookupD disc' l).isSome then none
        else some (⟨l, e.depth + 1, e.id, env.name e.id⟩ : BEntry)
    else []) with hnewdef
  set expanded' : List Nat :=
    (if e.depth < maxDepth then st.expanded ++ [e.id] else st.expanded) with hexpdef
  have hlook : lookupD disc' e.id = some rec := lookupD_snoc_self hd
  have hnewdepth : ∀ x ∈ newEntries, x.depth = e.depth + 1 := by
    intro x hx
    rw [hnewdef] at hx
    split at hx
    · obtain ⟨a, _, hfa⟩ := List.mem_filterMap.mp hx
      split at hfa
      · cases hfa
      · cases hfa
        rfl
    · cases hx
  have hnewvia : ∀ x ∈ newEntries, x.viaId = e.id ∧ x.id ∈ env.links e.id := by
    intro x hx
    rw [hnewdef] at hx
    split at hx
    · obtain ⟨a, ha, hfa⟩ := List.mem_filterMap.mp hx
      split at hfa
      · cases hfa
      · cases hfa
        exact ⟨rfl, ha⟩
    · cases hx
  have hexpmono : ∀ u ∈ st.expanded, u ∈ expanded' := by
    intro u hu
    rw [hexpdef]
    split
    · exact List.mem_append_left _ hu
    · exact hu
  have hwit : ∀ (w b : Nat),
      ((∃ r', lookupD st.disc w = some r' ∧ r'.depth ≤ b) ∨
        (∃ x ∈ st.queue, x.id = w ∧ x.depth ≤ b)) →
      ((∃ r', lookupD disc' w = some r' ∧ r'.depth ≤ b) ∨
        (∃ x ∈ rest ++ newEntries, x.id = w ∧ x.depth ≤ b)) := by
    intro w b hbw
    rcases hbw with ⟨r', hr', hrd'⟩ | ⟨x, hx, hxw, hxd⟩
    · exact Or.inl ⟨r', lookupD_append_left hr', hrd'⟩
    · rw [hq] at hx
      rcases List.mem_cons.mp hx with hx | hx
      · rw [hx] at hxw hxd
        rw [← hxw]
        exact Or.inl ⟨rec, hlook, hxd⟩
      · exact Or.inr ⟨x, List.mem_append_left _ hx, hxw, hxd⟩
  refine ⟨nodup_snoc_key hnd hd, ?_, ⟨fun w hw => hwit w 1 (hcbr w hw), ?_⟩, ?_, ⟨?_, ?_⟩,
    ⟨?_, ?_, ?_⟩, ⟨?_, ?_⟩, lookupD_append_left hroot⟩
  · -- QShape
    have := QShape_step hqs hq newEntries hnewdepth [(e.id, rec)]
      (by intro p hp; simp only [List.mem_singleton] at hp; rw [hp]) (st.total + env.size e.id)
      expanded'
    simpa using this
  · -- ChildBound, general clause
    intro v r hv hi hdep w hw
    by_cases hv' : v = e.id
    · -- the freshly included record
      subst hv'
      rw [hlook] at hv
      simp only [Option.some.injEq] at hv
      subst hv
      have hdep' : e.depth < maxDepth := hdep
      cases hsw : lookupD disc' w with
      | some r' =>
        refine Or.inl ⟨r', rfl, ?_⟩
        have hmem := lookupD_mem hsw
        rcases List.mem_append.mp hmem with hmem | hmem
        · exact le_trans (hhead _ hmem) (Nat.le_succ _)
        · simp only [List.mem_singleton] at hmem
          cases hmem
          exact Nat.le_succ _
      | none =>
        refine Or.inr ⟨⟨w, e.depth + 1, e.id, env.name e.id⟩, ?_, rfl, le_refl _⟩
        refine List.mem_append_right _ ?_
        rw [hnewdef]
        rw [if_pos hdep']
        refine List.mem_filterMap.mpr ⟨w, hw, ?_⟩
        rw [hsw]
        rfl
    · rw [lookupD_snoc_ne hv'] at hv
      exact hwit w (r.depth + 1) (hcb v r hv hi hdep w hw)
  · -- ExpInv
    intro v
    by_cases hv : v = e.id
    · subst hv
      constructor
      · intro hmem
        rw [hexpdef] at hmem
        split at hmem
        · refine Or.inr ⟨rec, hlook, rfl, ?_⟩
          assumption
        · exact absurd hmem henx
      · intro hcon
        rcases hcon with hcon | ⟨r, hr, hri, hrdep⟩
        · exact absurd hcon henr
        · rw [hlook] at hr
          cases hr
          rw [hexpdef, if_pos hrdep]
          exact List.mem_append_right _ (List.mem_singleton.mpr rfl)
    · have hmm : v ∈ expanded' ↔ v ∈ st.expanded := by
        rw [hexpdef]
        split
        · constructor
          · intro hm
            rcases List.mem_append.mp hm with hm | hm
            · exact hm
            · simp only [List.mem_singleton] at hm
              exact absurd hm hv
          · exact fun hm => List.mem_append_left _ hm
        · exact Iff.rfl
      rw [hmm, lookupD_snoc_ne hv]
      exact hexp v
  · -- ReachInv, records
    intro p hp
    rcases List.mem_append.mp hp with hp | hp
    · exact (hrd p hp).mono hexpmono
    · simp only [List.mem_singleton] at hp
      rw [hp]
      exact (hrq e heq).mono hexpmono
  · -- ReachInv, queue
    intro x hx
    rcases List.mem_append.mp hx with hx | hx
    · exact (hrq x (by rw [hq]; exact List.mem_cons_of_mem _ hx)).mono hexpmono
    · obtain ⟨hvia, hlink⟩ := hnewvia x hx
      have hdepx := hnewdepth x hx
      rw [hdepx]
      have hdep' : e.depth < maxDepth := by
        by_contra hcon
        rw [hnewdef, if_neg hcon] at hx
        cases hx
      refine Reach.step ((hrq e heq).mono hexpmono) ?_ hlink
      rw [hexpdef, if_pos hdep']
      exact List.mem_append_right _ (List.mem_singleton.mpr rfl)
  · -- ProvInv 1
    intro p hp u n hpr
    rcases List.mem_append.mp hp with hp | hp
    · exact hexpmono _ (hp1 p hp u n hpr)
    · simp only [List.mem_singleton] at hp
      rw [hp] at hpr
      simp only [hrec, Prov.linkedFrom.injEq] at hpr
      rw [← hpr.1]
      exact hexpmono _ (hp2 e heq)
  · -- ProvInv 2
    intro x hx
    rcases List.mem_append.mp hx with hx | hx
    · exact hexpmono _ (hp2 x (by rw [hq]; exact List.mem_cons_of_mem _ hx))
    · obtain ⟨hvia, _⟩ := hnewvia x hx
      have hdep' : e.depth < maxDepth := by
        by_contra hcon
        rw [hnewdef, if_neg hcon] at hx
        cases hx
      rw [hvia, hexpdef, if_pos hdep']
      exact List.mem_append_right _ (List.mem_singleton.mpr rfl)
  · -- ProvInv 3
    intro v hv
    rw [hexpdef] at hv
    by_cases hv' : v = e.id
    · subst hv'
      exact ⟨rec, hlook, rfl⟩
    · have : v ∈ st.expanded := by
        split at hv
        · rcases List.mem_append.mp hv with hm | hm
          · exact hm
          · simp only [List.mem_singleton] at hm
            exact absurd hm hv'
        · exact hv
      obtain ⟨r, hr, hi⟩ := hp3 v this
      exact ⟨r, lookupD_append_left hr, hi⟩
  · -- BudgetInv 1
    rw [hdisc', sumIncluded_append, ← hb1]
    simp [sumIncluded, hrec]
  · -- BudgetInv 2
    intro _
    exact Nat.le_of_not_lt hb

/-- The invariant is preserved along any completed run of the loop, and
the loop only returns once the queue has drained. -/
theorem bfsLoop_inv (env : BfsEnv) (maxDepth maxCharacters rootNote : Nat) :
    ∀ (fuel : Nat) (st out : BfsState),
    BfsInv env maxDepth maxCharacters rootNote st →
    bfsLoop env maxDepth maxCharacters fuel st = some out →
    BfsInv env maxDepth maxCharacters rootNote out ∧ out.queue = [] := by
  intro fuel
  induction fuel with
  | zero => intro st out _ h; cases h
  | succ fuel ih =>
    intro st out hinv h
    cases hq : st.queue with
    | nil =>
      simp only [bfsLoop, hq] at h
      cases h
      exact ⟨hinv, hq⟩
    | cons e rest =>
      simp only [bfsLoop, hq] at h
      split at h
      · exact ih _ _ (BfsInv_step_skip hinv hq (by assumption)) h
      · rename_i hns
        have hd : lookupD st.disc e.id = none :=
          Option.not_isSome_iff_eq_none.mp (by simpa using hns)
        split at h
        · exact ih _ _ (BfsInv_step_exclude hinv hq hd) h
        · exact ih _ _ (BfsInv_step_include hinv hq hd (by assumption)) h

/-- The invariant holds at the seeded initial state. -/
theorem bfsInit_inv (env : BfsEnv) (rootNote maxDepth maxCharacters : Nat) :
    BfsInv env maxDepth maxCharacters rootNote (bfsInit env rootNote) := by
  have hroot0 : lookupD [(rootNote, (⟨0, .root, env.size rootNote, true⟩ : DRec))] rootNote =
      some ⟨0, .root, env.size rootNote, true⟩ := by
    rw [lookupD_single, if_pos rfl]
  refine ⟨by simp [bfsInit], ?_, ⟨?_, ?_⟩, ?_, ⟨?_, ?_⟩, ⟨?_, ?_, ?_⟩, ⟨?_, ?_⟩, hroot0⟩
  · -- QShape with front depth 1
    refine ⟨1, (env.links rootNote).map fun l => ⟨l, 1, rootNote, env.name rootNote⟩, [],
      by simp [bfsInit], ?_, by simp, ?_⟩
    · intro x hx
      obtain ⟨l, _, rfl⟩ := List.mem_map.mp hx
      rfl
    · intro p hp
      simp only [bfsInit, List.mem_singleton] at hp
      rw [hp]
      exact Nat.zero_le 1
  · -- ChildBound root clause
    intro w hw
    refine Or.inr ⟨⟨w, 1, rootNote, env.name rootNote⟩, ?_, rfl, le_refl 1⟩
    simp only [bfsInit]
    exact List.mem_map.mpr ⟨w, hw, rfl⟩
  · -- ChildBound general clause
    intro v r hv _ _ w hw
    have hv' : v = rootNote ∧ r = ⟨0, .root, env.size rootNote, true⟩ := by
      simp only [bfsInit] at hv
      rw [lookupD_single] at hv
      split at hv
      · rename_i hrv
        simp only [Option.some.injEq] at hv
        exact ⟨hrv.symm, hv.symm⟩
      · cases hv
    obtain ⟨hv1, hv2⟩ := hv'
    refine Or.inr ⟨⟨w, 1, rootNote, env.name rootNote⟩, ?_, rfl, ?_⟩
    · simp only [bfsInit]
      refine List.mem_map.mpr ⟨w, ?_, rfl⟩
      rw [← hv1]
      exact hw
    · show (1 : Nat) ≤ r.depth + 1
      omega
  · -- ExpInv
    intro v
    simp only [bfsInit, List.mem_singleton]
    constructor
    · intro hv
      exact Or.inl hv
    · intro hv
      rcases hv with hv | ⟨r, hr, _, _⟩
      · exact hv
      · rw [lookupD_single] at hr
        split at hr
        · omega
        · cases hr
  · -- ReachInv records
    intro p hp
    simp only [bfsInit, List.mem_singleton] at hp
    rw [hp]
    exact .base
  · -- ReachInv queue
    intro x hx
    simp only [bfsInit] at hx
    obtain ⟨l, hl, rfl⟩ := List.mem_map.mp hx
    exact .step .base (by simp [bfsInit]) hl
  · -- ProvInv 1
    intro p hp u n hpr
    simp only [bfsInit, List.mem_singleton] at hp
    rw [hp] at hpr
    cases hpr
  · -- ProvInv 2
    intro x hx
    simp only [bfsInit] at hx ⊢
    obtain ⟨l, _, rfl⟩ := List.mem_map.mp hx
    simp
  · -- ProvInv 3
    intro v hv
    simp only [bfsInit, List.mem_singleton] at hv
    rw [hv]
    exact ⟨_, hroot0, rfl⟩
  · -- Budget 1
    simp [bfsInit, sumIncluded]
  · -- Budget 2
    exact fun h => h

/-! ### BFS loop: record and ghost-trace preservation -/

theorem bfsLoop_preserves (env : BfsEnv) (maxDepth maxCharacters : Nat) :
    ∀ (fuel : Nat) (st out : BfsState),
    bfsLoop env maxDepth maxCharacters fuel st = some out →
    (∀ v r, lookupD st.disc v = some r → lookupD out.disc v = some r) ∧
    (∀ v, v ∈ st.expanded → v ∈ out.expanded) := by
  intro fuel
  induction fuel with
  | zero => intro st out h; cases h
  | succ fuel ih =>
    intro st out h
    cases hq : st.queue with
    | nil =>
      simp only [bfsLoop, hq] at h
      cases h
      exact ⟨fun _ _ hr => hr, fun _ hv => hv⟩
    | cons e rest =>
      simp only [bfsLoop, hq] at h
      split at h
      · obtain ⟨h1, h2⟩ := ih _ _ h
        exact ⟨h1, h2⟩
      · split at h
        · obtain ⟨h1, h2⟩ := ih _ _ h
          exact ⟨fun v r hr => h1 v r (lookupD_append_left hr), h2⟩
        · obtain ⟨h1, h2⟩ := ih _ _ h
          refine ⟨fun v r hr => h1 v r (lookupD_append_left hr), fun v hv => h2 v ?_⟩
          by_cases hdep : e.depth < maxDepth
          · simp only [if_pos hdep]
            exact List.mem_append_left _ hv
          · simp only [if_neg hdep]
            exact hv

/-- C10: a filename beginning `2024-02-31` passes the range validation
(month 1–12, day 1–31) and the filename-date extraction returns the
rolled-over day 2024-03-02 rather than `null`; consequently the note is
included by `getRecentlyModifiedNotes` in a window around 2024-03-02 —
a window its title does not literally name — via the filename-date rule,
even though its modification time (0) lies outside that window. -/
theorem mem_drop_one_append {α : Type _} {s : α} {l l' : List α}
    (h : s ∈ (l ++ l').drop 1) : s ∈ l.drop 1 ∨ s ∈ l' := by
  cases l with
  | nil => exact Or.inr (List.mem_of_mem_drop h)
  | cons a as =>
    simp only [List.cons_append, List.drop_succ_cons, List.drop_zero] at h
    rcases List.mem_append.mp h with h | h
    · exact Or.inl (by simpa using h)
    · exact Or.inr h

theorem secInv_step (p : List Char → Option Int) (st : SecState) (line : List Char)
    (h : SecInv st) : SecInv (sectionStep p st line) := by
  obtain ⟨h1, h2, h3⟩ := h
  unfold sectionStep
  cases hp : p line with
  | none => exact ⟨fun hf => h1 hf, fun hf => h2 hf, h3⟩
  | some d =>
    by_cases hf : st.hasFoundFirstDate = true
    · simp only [hf, Bool.not_true, Bool.false_eq_true, if_false]
      by_cases hc : st.currentSection.length > 0
      · simp only [if_pos hc]
        refine ⟨fun hcon => by simp [hf] at hcon, fun _ => by simp, ?_⟩
        intro s hs
        simp only at hs
        rcases mem_drop_one_append hs with hmem | hmem
        · exact h3 s hmem
        · simp only [List.mem_singleton] at hmem
          subst hmem
          exact h2 hf
      · simp only [if_neg hc]
        exact ⟨fun hcon => by simp [hf] at hcon, fun _ => by simp, h3⟩
    · have hb : st.hasFoundFirstDate = false := by simpa using hf
      obtain ⟨hs0, _⟩ := h1 hb
      simp only [hb, Bool.not_false, if_true]
      refine ⟨fun hcon => by simp at hcon, fun _ => by simp, ?_⟩
      intro s hs
      by_cases hc : st.currentSection.length > 0
      · simp only [if_pos hc, hs0] at hs
        simp at hs
      · simp only [if_neg hc, hs0] at hs
        simp at hs

theorem secInv_foldl (p : List Char → Option Int) (lines : List (List Char)) (st : SecState)
    (h : SecInv st) : SecInv (lines.foldl (sectionStep p) st) := by
  induction lines generalizing st with
  | nil => exact h
  | cons l ls ih => exact ih _ (secInv_step p st l h)

/-- C9: for every input text and every header format (modelled by an
arbitrary header parser `p`, as `getDateSections` consults the
configured format only through `parseDateFromHeader`), the produced
`DateSection` list has every element past the first dated; hence it
contains at most one `date = null` section, and such a section can only
be the first element. -/
theorem c9_sections_at_most_one_undated_and_first
    (p : List Char → Option Int) (content : List Char) :
    (∀ s ∈ (getDateSections p content).drop 1, s.1 ≠ none) ∧
    (getDateSections p content).countP (fun s => s.1.isNone) ≤ 1 := by
  have hinv : SecInv ((splitLines content).foldl (sectionStep p) ⟨[], [], none, false⟩) :=
    secInv_foldl p _ _ ⟨fun _ => ⟨rfl, rfl⟩, by simp, by simp⟩
  have hmain : ∀ s ∈ (getDateSections p content).drop 1, s.1 ≠ none := by
    intro s hs
    obtain ⟨h1, h2, h3⟩ := hinv
    simp only [getDateSections] at hs
    set st := (splitLines content).foldl (sectionStep p) ⟨[], [], none, false⟩ with hst
    by_cases hc : st.currentSection.length > 0
    · rw [if_pos hc] at hs
      cases hsec : st.sections with
      | nil => rw [hsec] at hs; simp at hs
      | cons a as =>
        rw [hsec] at hs
        simp only [List.cons_append, List.drop_succ_cons, List.drop_zero] at hs
        rcases List.mem_append.mp hs with hmem | hmem
        · exact h3 s (by rw [hsec]; simpa using hmem)
        · simp only [List.mem_singleton] at hmem
          subst hmem
          cases hb : st.hasFoundFirstDate with
          | false => exact absurd hsec (by rw [(h1 hb).1]; simp)
          | true => exact h2 hb
    · rw [if_neg hc] at hs
      exact h3 s hs
  refine ⟨hmain, ?_⟩
  cases hss : getDateSections p content with
  | nil => simp
  | cons a t =>
    have ht : t.countP (fun s => s.1.isNone) = 0 := by
      rw [List.countP_eq_zero]
      intro s hs
      have := hmain s (by rw [hss]; simpa using hs)
      simpa [Option.isNone_iff_eq_none] using this
    rw [List.countP_cons, ht]
    split <;> simp

/-- C7, counterexample: a linked-notes invocation with max characters 0
and link depth 5 — both invalid per the claim — is not rejected at the
configuration boundary: `gatherContext` proceeds into discovery and
returns a successful (non-error) result. -/
theorem c7_counterexample_no_validation :
    cfgZero.maxCharacters = 0 ∧ cfgZero.linkDepth = 5 ∧
    (gatherContext bfsEnvW recEnvW (fun _ => 1) cfgZero 10).isOk = true := by
  refine ⟨rfl, rfl, by decide⟩

/-- C7, amended: the only configurations `gatherContext` rejects before
discovery are a linked-notes invocation without a root note and a
recent-activity invocation without a time window; with a root note
present, discovery proceeds regardless of the max-characters and
link-depth values. -/
theorem c7_validation_amended (env : BfsEnv) (renv : RecencyEnv)
    (sizeOf : List Char → Nat) (cfg : CtxConfig) (fuel : Nat) :
    (cfg.sourceMode = .linkedNotes → cfg.rootNote = none →
      gatherContext env renv sizeOf cfg fuel =
        .error (("Root note required for linked-notes mode").toList)) ∧
    (cfg.sourceMode = .recentActivity → cfg.timeWindow = none →
      gatherContext env renv sizeOf cfg fuel =
        .error (("Time window required for recent-activity mode").toList)) ∧
    (∀ r, cfg.sourceMode = .linkedNotes → cfg.rootNote = some r →
      gatherContext env renv sizeOf cfg fuel =
        .ok ((discoverLinkedNotes env r cfg.linkDepth cfg.maxCharacters fuel).map
          fun notes => .linked (applyFolderFilters env cfg.excludeFolders notes))) := by
  refine ⟨?_, ?_, ?_⟩
  · intro hm hr
    unfold gatherContext
    rw [hm, hr]
  · intro hm hr
    unfold gatherContext
    rw [hm, hr]
  · intro r hm hr
    unfold gatherContext
    rw [hm, hr]

/-- Witness for C7's amended statement: the missing-root rejection and
the proceeds-with-root behavior at concrete configurations. -/
theorem c7_validation_witness :
    gatherContext bfsEnvW recEnvW (fun _ => 1) cfgNoRoot 10 =
      .error (("Root note required for linked-notes mode").toList) ∧
    gatherContext bfsEnvW recEnvW (fun _ => 1) cfgZero 10 =
      .ok ((discoverLinkedNotes bfsEnvW 0 cfgZero.linkDepth cfgZero.maxCharacters 10).map
        fun notes => .linked (applyFolderFilters bfsEnvW cfgZero.excludeFolders notes)) :=
  ⟨(c7_validation_amended bfsEnvW recEnvW (fun _ => 1) cfgNoRoot 10).1 rfl rfl,
   (c7_validation_amended bfsEnvW recEnvW (fun _ => 1) cfgZero 10).2.2 0 rfl rfl⟩

theorem foldl_resolve_dedup (resolve : List Char → Option Nat)
    (ts : List (List Char)) (acc : List Nat) :
    ts.foldl
      (fun acc t =>
        match resolve (stripAlias t) with
        | some f => addIfNew acc f
        | none => acc) acc =
    ((ts.map stripAlias).filterMap resolve).foldl addIfNew acc := by
  induction ts generalizing acc with
  | nil => rfl
  | cons t ts ih =>
    simp only [List.foldl_cons, List.map_cons, List.filterMap_cons]
    cases h : resolve (stripAlias t) with
    | none => simp only [h]; exact ih acc
    | some f => simp only [h]; exact ih (addIfNew acc f)

/-- C5 counterexample: the note `- [X] [[B]]` followed by `[[D]]` has a
checked checkbox reference item in the claim's sense — and the
extraction scan itself counts `[X]` as checked — yet the case-sensitive
detection regex misses it, so `getLinkedNotes` falls into general mode
and returns the direct link `D` instead of the checked item `B`: the
claimed exclusivity fails on this note. -/
theorem c5_counterexample_uppercase_checked :
    hasCheckboxLinksCI cexColl = true ∧
    scanChecked cexColl.length cexColl = [("B").toList] ∧
    hasCheckboxLinks cexColl = false ∧
    getLinkedNotes true linkEnvCex cexColl = [5] ∧
    checkedRefsSpec linkEnvCex.resolve cexColl = [3] := by decide

/-- C5 (amended): whenever the code's case-sensitive detection regex
fires — the note holds a checkbox reference item whose marker is a space
or a lower-case `x` — `getLinkedNotes` returns exactly the resolved
identities of the checked items (`x` or `X`: the extraction scan is
case-insensitive), deduplicated in first-seen order, for every host
environment, so the metadata links, embeds and Dataview query results
are never consulted.  A note whose only checkbox reference items are
upper-case `[X]` does not trigger this mode. -/
theorem c5_collection_exclusive_when_triggered (useDataview : Bool) (env : LinkEnv)
    (content : List Char) (h : hasCheckboxLinks content = true) :
    getLinkedNotes useDataview env content = checkedRefsSpec env.resolve content := by
  unfold getLinkedNotes checkedRefsSpec dedupFirstSeen
  rw [if_pos h]
  exact foldl_resolve_dedup env.resolve (scanChecked content.length content) []

/-- Witness for C5's amended statement: a concrete collection note (one
unchecked, one upper-case-checked, one aliased checked item) in an
environment that also offers links/embeds/Dataview results. -/
theorem c5_collection_triggered_witness :
    hasCheckboxLinks collW = true ∧
    getLinkedNotes true linkEnvW collW = checkedRefsSpec linkEnvW.resolve collW :=
  ⟨by decide, c5_collection_exclusive_when_triggered true linkEnvW collW (by decide)⟩

theorem recentIncluded_iff_windowRule (env : RecencyEnv) (s e : Int) (f : RFile) :
    recentIncluded env s e f = true ↔ windowRule env s e f := by
  unfold recentIncluded windowRule
  cases hx : extractDateFromFilename f.basename <;> cases hm : env.stat f.path <;>
    simp [hx, hm]

/-- C6: for every note of the vault listing not under an excluded
folder, `getRecentlyModifiedNotes` returns it iff its filename date (as
decoded, with validated month 1–12 / day 1–31) lies in the window or its
modification timestamp does; and the returned list is sorted descending
by effective time (filename date when present, else modification time). -/
theorem c6_recent_inclusion_iff_and_sorted (env : RecencyEnv) (startTime endTime : Int)
    (excl : List (List Char)) :
    (∀ f ∈ env.files, isExcludedPath excl f.path = false →
      (f ∈ getRecentlyModifiedNotes env startTime endTime excl ↔
        windowRule env startTime endTime f)) ∧
    List.Pairwise (fun a b => effectiveTime env b ≤ effectiveTime env a)
      (getRecentlyModifiedNotes env startTime endTime excl) := by
  have hperm :
      List.Perm
        (List.insertionSort (fun a b : RFile × Int => b.2 ≤ a.2)
          ((env.files.filter fun f =>
            !isExcludedPath excl f.path && recentIncluded env startTime endTime f).map
              fun f => (f, effectiveTime env f)))
        ((env.files.filter fun f =>
            !isExcludedPath excl f.path && recentIncluded env startTime endTime f).map
              fun f => (f, effectiveTime env f)) :=
    List.perm_insertionSort _ _
  constructor
  · intro f hf hexcl
    unfold getRecentlyModifiedNotes
    rw [(hperm.map Prod.fst).mem_iff, List.map_map]
    have hid : (Prod.fst ∘ fun f => (f, effectiveTime env f)) = id := rfl
    rw [hid, List.map_id, List.mem_filter]
    simp only [hf, true_and, hexcl, Bool.not_false, Bool.true_and]
    exact recentIncluded_iff_windowRule env startTime endTime f
  · haveI : IsTotal (RFile × Int) (fun a b => b.2 ≤ a.2) := ⟨fun a b => le_total b.2 a.2⟩
    haveI : IsTrans (RFile × Int) (fun a b => b.2 ≤ a.2) :=
      ⟨fun _ _ _ h1 h2 => le_trans h2 h1⟩
    have hs := List.sorted_insertionSort (fun a b : RFile × Int => b.2 ≤ a.2)
      ((env.files.filter fun f =>
          !isExcludedPath excl f.path && recentIncluded env startTime endTime f).map
            fun f => (f, effectiveTime env f))
    have hkey : ∀ p ∈ List.insertionSort (fun a b : RFile × Int => b.2 ≤ a.2)
        ((env.files.filter fun f =>
          !isExcludedPath excl f.path && recentIncluded env startTime endTime f).map
            fun f => (f, effectiveTime env f)), p.2 = effectiveTime env p.1 := by
      intro p hp
      rw [hperm.mem_iff, List.mem_map] at hp
      obtain ⟨g, _, rfl⟩ := hp
      rfl
    unfold getRecentlyModifiedNotes
    rw [List.pairwise_map]
    refine List.Pairwise.imp_of_mem ?_ hs
    intro a b ha hb hr
    rw [hkey a ha, hkey b hb] at hr
    exact hr

/-- Witness for C6 at a concrete two-note vault and window `[0, 100]`:
the undated note `a.md` (modification time 50) is returned, and the
instantiated sortedness holds. -/
theorem c6_recent_witness :
    (fWa ∈ getRecentlyModifiedNotes recEnvW 0 100 [] ↔ windowRule recEnvW 0 100 fWa) ∧
    List.Pairwise (fun a b => effectiveTime recEnvW b ≤ effectiveTime recEnvW a)
      (getRecentlyModifiedNotes recEnvW 0 100 []) :=
  ⟨(c6_recent_inclusion_iff_and_sorted recEnvW 0 100 []).1 fWa (by decide) (by decide),
   (c6_recent_inclusion_iff_and_sorted recEnvW 0 100 []).2⟩

theorem c10_filename_date_rolls_over :
    extractDateFromFilename (("2024-02-31 Meeting").toList) = some (dateCode 2024 3 2) ∧
    getRecentlyModifiedNotes rollEnv (dateCode 2024 3 1) (dateCode 2024 3 3) [] = [rollFile] ∧
    ¬ (dateCode 2024 3 1 ≤ 0 ∧ (0 : Int) ≤ dateCode 2024 3 3) := by
  refine ⟨by decide, by decide, by decide⟩

/-- C8, counterexample: with the registered mapping `A ↦ B, B ↦ C`,
rewriting `[[A]]` yields `[[B]]`, and rewriting again yields `[[C]]` —
`processBacklinks` is not idempotent on its image for every registered
mapping. -/
theorem c8_counterexample_chained_mapping :
    processBacklinks mChain (processBacklinks mChain ['[', '[', 'A', ']', ']']) ≠
      processBacklinks mChain ['[', '[', 'A', ']', ']'] := by
  decide

/-- C8, amended: `processBacklinks` is a total function of its input (it
never throws, being defined for every string and mapping), and it is
idempotent on its image whenever every registered value is the
sanitization of its key — which is how `BacklinkMapper.registerTitle` is
fed (a title together with its sanitized filename). -/
theorem c8_rewrite_idempotent_for_sanitized_values
    (m : List Char → Option (List Char))
    (Hm : ∀ t v, m t = some v → v = sanitizeFilename t) (l : List Char) :
    processBacklinks m (processBacklinks m l) = processBacklinks m l :=
  (pb_idem_aux Hm l.length l (le_refl _)).1

/-- Witness for C8's amended statement: the mapping registering `A*`
with its sanitized identifier `A - ` is idempotent on a concrete text. -/
theorem c8_rewrite_idempotent_witness :
    processBacklinks mOk (processBacklinks mOk
      ('x' :: ' ' :: '[' :: '[' :: 'A' :: '*' :: ']' :: ']' :: [])) =
    processBacklinks mOk ('x' :: ' ' :: '[' :: '[' :: 'A' :: '*' :: ']' :: ']' :: []) :=
  c8_rewrite_idempotent_for_sanitized_values mOk
    (fun t v h => by
      unfold mOk at h
      split at h
      · cases h
        rfl
      · cases h) _

/-! ### Link-discovery claims (C1–C4) -/

theorem discoverFull_inv {env : BfsEnv} {rootNote maxDepth maxCharacters fuel : Nat}
    {out : BfsState} (h : discoverFull env rootNote maxDepth maxCharacters fuel = some out) :
    BfsInv env maxDepth maxCharacters rootNote out ∧ out.queue = [] :=
  bfsLoop_inv env maxDepth maxCharacters rootNote fuel _ out
    (bfsInit_inv env rootNote maxDepth maxCharacters) h

/-- C1, counterexample: with a root of size 10 and `maxCharacters = 5`
(a positive budget), the completed discovery still carries a total of 10
included characters — the claimed bound `sum ≤ maxCharacters` fails
because the root is included unconditionally. -/
theorem c1_counterexample_root_oversized :
    (discoverLinkedNotes bfsEnvW 0 2 5 10).map sumIncluded = some 10 ∧ ¬ (10 ≤ 5) :=
  ⟨by decide, by decide⟩

/-- C1, amended: in every completed link-discovery run the root note is
in the result with `included = true` at depth 0 and provenance root, and
whenever the root alone fits the budget (`size root ≤ maxCharacters`)
the sum of `estimatedChars` over included notes is at most
`maxCharacters`. -/
theorem c1_root_included_and_budget (env : BfsEnv)
    (rootNote maxDepth maxCharacters fuel : Nat) (out : List (Nat × DRec))
    (h : discoverLinkedNotes env rootNote maxDepth maxCharacters fuel = some out) :
    (∃ r, (rootNote, r) ∈ out ∧ r.included = true ∧ r.depth = 0 ∧ r.prov = .root) ∧
    (env.size rootNote ≤ maxCharacters → sumIncluded out ≤ maxCharacters) := by
  unfold discoverLinkedNotes at h
  cases hf : discoverFull env rootNote maxDepth maxCharacters fuel with
  | none => rw [hf] at h; cases h
  | some st =>
    rw [hf] at h
    simp only [Option.map_some', Option.some.injEq] at h
    subst h
    obtain ⟨⟨_, _, _, _, _, _, ⟨hb1, hb2⟩, hroot⟩, _⟩ := discoverFull_inv hf
    constructor
    · exact ⟨⟨0, .root, env.size rootNote, true⟩,
        (List.perm_insertionSort _ _).mem_iff.mpr (lookupD_mem hroot), rfl, rfl, rfl⟩
    · intro hle
      have hsum : sumIncluded (List.insertionSort (dnLE env) st.disc) = sumIncluded st.disc :=
        List.Perm.sum_eq ((List.perm_insertionSort _ _).map _)
      rw [hsum, ← hb1]
      exact hb2 hle

/-- Witness for C1's amended statement on the three-note vault. -/
theorem c1_root_included_witness :
    (∃ r, (0, r) ∈ outW ∧ r.included = true ∧ r.depth = 0 ∧ r.prov = .root) ∧
    (bfsEnvW.size 0 ≤ 100 → sumIncluded outW ≤ 100) :=
  c1_root_included_and_budget bfsEnvW 0 2 100 10 outW (by decide)

/-- C2: no discovery run returns two records with the same identity.
First conjunct: link-discovery results have pairwise-distinct ids.
Second conjunct: the `discovered` map is insertion-only — once an
identity is recorded (at its first dequeue) the record never changes, so
later queue entries for the same identity leave it untouched
(first-dequeued wins).  Third conjunct: recency discovery keeps the
vault listing's distinct paths distinct. -/
theorem c2_no_duplicate_identities :
    (∀ (env : BfsEnv) (rootNote maxDepth maxCharacters fuel : Nat) (out : List (Nat × DRec)),
      discoverLinkedNotes env rootNote maxDepth maxCharacters fuel = some out →
      (out.map (·.1)).Nodup) ∧
    (∀ (env : BfsEnv) (maxDepth maxCharacters fuel : Nat) (st out : BfsState),
      bfsLoop env maxDepth maxCharacters fuel st = some out →
      ∀ v r, lookupD st.disc v = some r → lookupD out.disc v = some r) ∧
    (∀ (renv : RecencyEnv) (sizeOf : List Char → Nat) (startTime endTime : Int)
      (excl : List (List Char)), (renv.files.map (·.path)).Nodup →
      ((discoverRecentNotes renv sizeOf startTime endTime excl).map (·.file.path)).Nodup) := by
  refine ⟨?_, ?_, ?_⟩
  · intro env rootNote maxDepth maxCharacters fuel out h
    unfold discoverLinkedNotes at h
    cases hf : discoverFull env rootNote maxDepth maxCharacters fuel with
    | none => rw [hf] at h; cases h
    | some st =>
      rw [hf] at h
      simp only [Option.map_some', Option.some.injEq] at h
      subst h
      obtain ⟨⟨hnd, _⟩, _⟩ := discoverFull_inv hf
      exact (((List.perm_insertionSort (dnLE env) st.disc).map (·.1)).nodup_iff).mpr hnd
  · intro env maxDepth maxCharacters fuel st out h
    exact (bfsLoop_preserves env maxDepth maxCharacters fuel st out h).1
  · intro renv sizeOf startTime endTime excl hnd
    unfold discoverRecentNotes
    rw [List.map_map]
    show ((getRecentlyModifiedNotes renv startTime endTime excl).map fun f => f.path).Nodup
    unfold getRecentlyModifiedNotes
    rw [List.map_map]
    have hperm := (List.perm_insertionSort (fun a b : RFile × Int => b.2 ≤ a.2)
      ((renv.files.filter fun f =>
        !isExcludedPath excl f.path && recentIncluded renv startTime endTime f).map
          fun f => (f, effectiveTime renv f))).map fun p : RFile × Int => p.1.path
    refine (hperm.nodup_iff).mpr ?_
    rw [List.map_map]
    show ((renv.files.filter fun f =>
      !isExcludedPath excl f.path && recentIncluded renv startTime endTime f).map
        fun f => f.path).Nodup
    exact ((List.filter_sublist renv.files).map fun f => f.path).nodup hnd

/-- Witness for C2 at concrete runs: distinct ids in a completed
link-discovery result, record preservation across a completed loop run,
and distinct paths in a recency result. -/
theorem c2_no_duplicate_witness :
    (outW.map (·.1)).Nodup ∧
    lookupD stCex.disc 0 = some ⟨0, .root, 10, true⟩ ∧
    ((discoverRecentNotes recEnvW (fun _ => 1) 0 100 []).map (·.file.path)).Nodup := by
  refine ⟨c2_no_duplicate_identities.1 bfsEnvW 0 2 100 10 outW (by decide), ?_,
    c2_no_duplicate_identities.2.2 recEnvW (fun _ => 1) 0 100 [] (by decide)⟩
  exact c2_no_duplicate_identities.2.1 bfsEnvW 2 5 10 (bfsInit bfsEnvW 0) stCex (by decide)
    0 ⟨0, .root, 10, true⟩ (by decide)

/-- C4: in every completed link-discovery run, a note recorded with
`included = false` (budget overflow) is never expanded — its references
are never resolved or enqueued (the ghost `expanded` trace records
exactly the notes whose references were resolved) — and consequently no
note of the same run carries a provenance discovering it via the
excluded note: excluded notes are leaves. -/
theorem c4_excluded_are_leaves (env : BfsEnv)
    (rootNote maxDepth maxCharacters fuel : Nat) (out : BfsState)
    (h : discoverFull env rootNote maxDepth maxCharacters fuel = some out) :
    ∀ v r, lookupD out.disc v = some r → r.included = false →
      v ∉ out.expanded ∧
      ∀ w rw2, lookupD out.disc w = some rw2 → ∀ n, rw2.prov ≠ .linkedFrom v n := by
  obtain ⟨⟨_, _, _, _, _, ⟨hp1, _, hp3⟩, _, _⟩, _⟩ := discoverFull_inv h
  intro v r hv hincl
  have hnx : v ∉ out.expanded := by
    intro hmem
    obtain ⟨r', hr', hi'⟩ := hp3 v hmem
    have : r = r' := by
      have := hv.symm.trans hr'
      simpa using this
    rw [← this] at hi'
    rw [hi'] at hincl
    cases hincl
  refine ⟨hnx, ?_⟩
  intro w rw2 hw n hpr
  exact hnx (hp1 _ (lookupD_mem hw) v n hpr)

/-- At a drained final state, every note reachable through expanded
notes in `n` hops is recorded at depth at most `n`. -/
theorem final_depth_le_reach {env : BfsEnv} {rootNote maxDepth maxCharacters : Nat}
    {out : BfsState} (hinv : BfsInv env maxDepth maxCharacters rootNote out)
    (hq : out.queue = []) :
    ∀ v n, Reach env out.expanded rootNote v n →
      ∃ r, lookupD out.disc v = some r ∧ r.depth ≤ n := by
  obtain ⟨_, _, ⟨hcbr, hcb⟩, hexp, _, _, _, hroot⟩ := hinv
  intro v n h
  induction h with
  | base => exact ⟨_, hroot, Nat.le_refl 0⟩
  | @step u w n hu huX hl ih =>
    obtain ⟨ru, hru, hrud⟩ := ih
    rcases (hexp _).mp huX with hu' | ⟨r', hr', hi', hd'⟩
    · rcases hcbr w (hu' ▸ hl) with ⟨r2, hr2, hd2⟩ | ⟨x, hx, _⟩
      · exact ⟨r2, hr2, by omega⟩
      · rw [hq] at hx
        cases hx
    · have heq : ru = r' := by
        have := hru.symm.trans hr'
        simpa using this
      subst heq
      rcases hcb u ru hru hi' hd' w hl with ⟨r2, hr2, hd2⟩ | ⟨x, hx, _⟩
      · exact ⟨r2, hr2, by omega⟩
      · rw [hq] at hx
        cases hx

theorem mem_enqueue_filterMap {env : BfsEnv} {D : List (Nat × DRec)}
    {i dep via : Nat} {nm : List Char} {x : BEntry}
    (hx : x ∈ (env.links i).filterMap fun l =>
      if (lookupD D l).isSome then none else some ⟨l, dep, via, nm⟩) :
    x.depth = dep ∧ x.viaId = via ∧ x.id ∈ env.links i := by
  obtain ⟨a, ha, hfa⟩ := List.mem_filterMap.mp hx
  split at hfa
  · cases hfa
  · cases hfa
    exact ⟨rfl, rfl, ha⟩

/-- Simulation of a depth-`maxD` run by a depth-`maxD'` run (`maxD <
maxD'`) from related states: same map and total, the deeper run's queue
extends the shallower one's by entries beyond `maxD`.  Every record of
the shallower completed run appears unchanged in the deeper one. -/
theorem bfsLoop_sim (env : BfsEnv) (maxD maxD' maxC : Nat) (hmd : maxD < maxD') :
    ∀ (fuel1 : Nat) (st1 st2 out1 : BfsState),
    st1.disc = st2.disc → st1.total = st2.total →
    (∃ tail, st2.queue = st1.queue ++ tail ∧ (∀ x ∈ tail, maxD < x.depth) ∧
      (tail ≠ [] → ∀ x ∈ st1.queue, maxD ≤ x.depth)) →
    QShape st2 →
    bfsLoop env maxD maxC fuel1 st1 = some out1 →
    ∀ (fuel2 : Nat) (out2 : BfsState),
    bfsLoop env maxD' maxC fuel2 st2 = some out2 →
    ∀ v r, lookupD out1.disc v = some r → lookupD out2.disc v = some r := by
  intro fuel1
  induction fuel1 with
  | zero =>
    intro st1 st2 out1 _ _ _ _ h1
    cases h1
  | succ fuel1 ih =>
    intro st1 st2 out1 hdisc htot hrel hqs2 h1 fuel2 out2 h2 v r hv
    obtain ⟨tail, hqt, htail, htne⟩ := hrel
    obtain ⟨D1, T1, Q1, E1⟩ := st1
    obtain ⟨D2, T2, Q2, E2⟩ := st2
    simp only at hdisc htot hqt h1 h2 hqs2 ⊢
    subst hdisc
    subst htot
    subst hqt
    cases hq1 : Q1 with
    | nil =>
      subst hq1
      simp only [bfsLoop] at h1
      cases h1
      exact (bfsLoop_preserves env maxD' maxC fuel2 _ out2 h2).1 v r hv
    | cons e rest1 =>
      subst hq1
      cases fuel2 with
      | zero => cases h2
      | succ fuel2 =>
        simp only [bfsLoop, List.cons_append] at h1 h2
        split at h1
        · rename_i hl
          rw [if_pos hl] at h2
          refine ih ⟨D1, T1, rest1, E1⟩ ⟨D1, T1, rest1 ++ tail, E2⟩ out1 rfl rfl
            ⟨tail, rfl, htail, fun hne x hx => htne hne x (List.mem_cons_of_mem _ hx)⟩
            ?_ h1 fuel2 out2 h2 v r hv
          have := QShape_step hqs2
            (show (⟨D1, T1, e :: (rest1 ++ tail), E2⟩ : BfsState).queue = e :: (rest1 ++ tail)
              from rfl) [] (by simp) [] (by simp) T1 E2
          simpa using this
        · rename_i hl
          rw [if_neg hl] at h2
          split at h1
          · rename_i hb
            rw [if_pos hb] at h2
            refine ih
              ⟨D1 ++ [(e.id, ⟨e.depth, .linkedFrom e.viaId e.viaName, env.size e.id, false⟩)],
                T1, rest1, E1⟩
              ⟨D1 ++ [(e.id, ⟨e.depth, .linkedFrom e.viaId e.viaName, env.size e.id, false⟩)],
                T1, rest1 ++ tail, E2⟩ out1 rfl rfl
              ⟨tail, rfl, htail, fun hne x hx => htne hne x (List.mem_cons_of_mem _ hx)⟩
              ?_ h1 fuel2 out2 h2 v r hv
            have := QShape_step hqs2
              (show (⟨D1, T1, e :: (rest1 ++ tail), E2⟩ : BfsState).queue = e :: (rest1 ++ tail)
                from rfl) [] (by simp)
              [(e.id, ⟨e.depth, .linkedFrom e.viaId e.viaName, env.size e.id, false⟩)]
              (by intro p hp; simp only [List.mem_singleton] at hp; rw [hp]) T1 E2
            simpa using this
          · rename_i hb
            rw [if_neg hb] at h2
            by_cases hd1 : e.depth < maxD
            · -- both gates open; the deeper queue has no extra tail here
              have htl : tail = [] := by
                by_contra hne
                exact absurd (htne hne e (List.mem_cons_self _ _)) (Nat.not_le.mpr hd1)
              subst htl
              have hd2 : e.depth < maxD' := Nat.lt_trans hd1 hmd
              simp only [if_pos hd1] at h1
              simp only [if_pos hd2, List.append_nil] at h2
              refine ih
                ⟨D1 ++ [(e.id, ⟨e.depth, .linkedFrom e.viaId e.viaName, env.size e.id, true⟩)],
                  T1 + env.size e.id,
                  rest1 ++ ((env.links e.id).filterMap fun l =>
                    if (lookupD
                        (D1 ++
                          [(e.id, ⟨e.depth, .linkedFrom e.viaId e.viaName, env.size e.id, true⟩)])
                        l).isSome then none
                    else some ⟨l, e.depth + 1, e.id, env.name e.id⟩),
                  E1 ++ [e.id]⟩
                ⟨D1 ++ [(e.id, ⟨e.depth, .linkedFrom e.viaId e.viaName, env.size e.id, true⟩)],
                  T1 + env.size e.id,
                  rest1 ++ ((env.links e.id).filterMap fun l =>
                    if (lookupD
                        (D1 ++
                          [(e.id, ⟨e.depth, .linkedFrom e.viaId e.viaName, env.size e.id, true⟩)])
                        l).isSome then none
                    else some ⟨l, e.depth + 1, e.id, env.name e.id⟩),
                  E2 ++ [e.id]⟩ out1 rfl rfl
                ⟨[], by simp, by simp, by simp⟩ ?_ h1 fuel2 out2 h2 v r hv
              have := QShape_step hqs2
                (show (⟨D1, T1, e :: (rest1 ++ []), E2⟩ : BfsState).queue = e :: (rest1 ++ [])
                  from rfl)
                ((env.links e.id).filterMap fun l =>
                  if (lookupD
                      (D1 ++ [(e.id, ⟨e.depth, .linkedFrom e.viaId e.viaName, env.size e.id, true⟩)])
                      l).isSome then none
                  else some ⟨l, e.depth + 1, e.id, env.name e.id⟩)
                (fun x hx => (mem_enqueue_filterMap hx).1)
                [(e.id, ⟨e.depth, .linkedFrom e.viaId e.viaName, env.size e.id, true⟩)]
                (by intro p hp; simp only [List.mem_singleton] at hp; rw [hp])
                (T1 + env.size e.id) (E2 ++ [e.id])
              simpa using this
            · simp only [if_neg hd1] at h1
              have hge : maxD ≤ e.depth := Nat.not_lt.mp hd1
              have hrge : ∀ x ∈ rest1 ++ tail, maxD ≤ x.depth :=
                QShape_rest_ge hqs2
                  (show (⟨D1, T1, e :: (rest1 ++ tail), E2⟩ : BfsState).queue =
                    e :: (rest1 ++ tail) from rfl) hge
              simp only [List.append_nil] at h1
              by_cases hd2 : e.depth < maxD'
              · simp only [if_pos hd2] at h2
                refine ih
                  ⟨D1 ++ [(e.id, ⟨e.depth, .linkedFrom e.viaId e.viaName, env.size e.id, true⟩)],
                    T1 + env.size e.id, rest1, E1⟩
                  ⟨D1 ++ [(e.id, ⟨e.depth, .linkedFrom e.viaId e.viaName, env.size e.id, true⟩)],
                    T1 + env.size e.id,
                    (rest1 ++ tail) ++ ((env.links e.id).filterMap fun l =>
                      if (lookupD
                          (D1 ++
                            [(e.id, ⟨e.depth, .linkedFrom e.viaId e.viaName, env.size e.id, true⟩)])
                          l).isSome then none
                      else some ⟨l, e.depth + 1, e.id, env.name e.id⟩),
                    E2 ++ [e.id]⟩ out1 rfl rfl
                  ⟨tail ++ ((env.links e.id).filterMap fun l =>
                      if (lookupD
                          (D1 ++
                            [(e.id, ⟨e.depth, .linkedFrom e.viaId e.viaName, env.size e.id, true⟩)])
                          l).isSome then none
                      else some ⟨l, e.depth + 1, e.id, env.name e.id⟩),
                    by simp, ?_, ?_⟩ ?_ h1 fuel2 out2 h2 v r hv
                · intro x hx
                  rcases List.mem_append.mp hx with hx | hx
                  · exact htail x hx
                  · have := (mem_enqueue_filterMap hx).1
                    omega
                · intro _ x hx
                  exact hrge x (List.mem_append_left _ hx)
                · have := QShape_step hqs2
                    (show (⟨D1, T1, e :: (rest1 ++ tail), E2⟩ : BfsState).queue =
                      e :: (rest1 ++ tail) from rfl)
                    ((env.links e.id).filterMap fun l =>
                      if (lookupD
                          (D1 ++
                            [(e.id, ⟨e.depth, .linkedFrom e.viaId e.viaName, env.size e.id, true⟩)])
                          l).isSome then none
                      else some ⟨l, e.depth + 1, e.id, env.name e.id⟩)
                    (fun x hx => (mem_enqueue_filterMap hx).1)
                    [(e.id, ⟨e.depth, .linkedFrom e.viaId e.viaName, env.size e.id, true⟩)]
                    (by intro p hp; simp only [List.mem_singleton] at hp; rw [hp])
                    (T1 + env.size e.id) E2
                  simpa using this
              · simp only [if_neg hd2, List.append_nil] at h2
                refine ih
                  ⟨D1 ++ [(e.id, ⟨e.depth, .linkedFrom e.viaId e.viaName, env.size e.id, true⟩)],
                    T1 + env.size e.id, rest1, E1⟩
                  ⟨D1 ++ [(e.id, ⟨e.depth, .linkedFrom e.viaId e.viaName, env.size e.id, true⟩)],
                    T1 + env.size e.id, rest1 ++ tail, E2⟩ out1 rfl rfl
                  ⟨tail, rfl, htail, fun hne x hx => ?_⟩ ?_ h1 fuel2 out2 h2 v r hv
                · exact htne hne x (List.mem_cons_of_mem _ hx)
                · have := QShape_step hqs2
                    (show (⟨D1, T1, e :: (rest1 ++ tail), E2⟩ : BfsState).queue =
                      e :: (rest1 ++ tail) from rfl) [] (by simp)
                    [(e.id, ⟨e.depth, .linkedFrom e.viaId e.viaName, env.size e.id, true⟩)]
                    (by intro p hp; simp only [List.mem_singleton] at hp; rw [hp])
                    (T1 + env.size e.id) E2
                  simpa using this

/-- C3: in every completed link-discovery run, each recorded depth is
exactly the shortest reference-hop distance from the root in the
reference graph restricted to the traversed (expanded) notes — the depth
is realized by such a path and is a lower bound on every such path's
length; and re-running with a strictly larger `maxDepth` never decreases
a recorded depth (the record is preserved verbatim). -/
theorem c3_depth_shortest_and_monotone (env : BfsEnv)
    (rootNote maxDepth maxCharacters fuel : Nat) (out : BfsState)
    (h : discoverFull env rootNote maxDepth maxCharacters fuel = some out) :
    (∀ v r, lookupD out.disc v = some r →
      Reach env out.expanded rootNote v r.depth ∧
      ∀ n, Reach env out.expanded rootNote v n → r.depth ≤ n) ∧
    (∀ maxDepth' fuel' out', maxDepth < maxDepth' →
      discoverFull env rootNote maxDepth' maxCharacters fuel' = some out' →
      ∀ v r, lookupD out.disc v = some r →
        ∃ r', lookupD out'.disc v = some r' ∧ r.depth ≤ r'.depth) := by
  obtain ⟨hinv, hq⟩ := discoverFull_inv h
  constructor
  · intro v r hv
    refine ⟨?_, ?_⟩
    · obtain ⟨_, _, _, _, ⟨hrd, _⟩, _, _, _⟩ := hinv
      exact hrd _ (lookupD_mem hv)
    · intro n hn
      obtain ⟨r2, hr2, hd2⟩ := final_depth_le_reach hinv hq v n hn
      have hr : r = r2 := by
        have := hv.symm.trans hr2
        simpa using this
      rw [hr]
      exact hd2
  · intro maxDepth' fuel' out' hlt h' v r hv
    refine ⟨r, ?_, le_refl _⟩
    exact bfsLoop_sim env maxDepth maxDepth' maxCharacters hlt fuel
      (bfsInit env rootNote) (bfsInit env rootNote) out rfl rfl
      ⟨[], by simp, by simp, by simp⟩
      (bfsInit_inv env rootNote maxDepth' maxCharacters).2.1 h fuel' out' h' v r hv

/-- Witness for C3 on the three-note chain: note 2's recorded depth 2 is
realized and minimal among expanded-restricted paths, and the depth-3
re-run records it at the same depth. -/
theorem c3_depth_witness :
    (Reach bfsEnvW stW.expanded 0 2 2 ∧
      ∀ n, Reach bfsEnvW stW.expanded 0 2 n → 2 ≤ n) ∧
    (∃ r', lookupD stW3.disc 2 = some r' ∧
      (⟨2, .linkedFrom 1 ['B'], 10, true⟩ : DRec).depth ≤ r'.depth) := by
  have h1 := (c3_depth_shortest_and_monotone bfsEnvW 0 2 100 10 stW (by decide)).1
    2 ⟨2, .linkedFrom 1 ['B'], 10, true⟩ (by decide)
  have h2 := (c3_depth_shortest_and_monotone bfsEnvW 0 2 100 10 stW (by decide)).2
    3 20 stW3 (by decide) (by decide) 2 ⟨2, .linkedFrom 1 ['B'], 10, true⟩ (by decide)
  exact ⟨h1, h2⟩

/-- Witness for C4: in the budget-5 run, the excluded note 1 is not in
the expanded trace and nothing is discovered via it. -/
theorem c4_excluded_witness :
    (1 : Nat) ∉ stCex.expanded ∧
    ∀ w rw2, lookupD stCex.disc w = some rw2 → ∀ n, rw2.prov ≠ .linkedFrom 1 n :=
  c4_excluded_are_leaves bfsEnvW 0 2 5 10 stCex (by decide) 1
    ⟨1, .linkedFrom 0 ['A'], 10, false⟩ (by decide) rfl

end OpenAugi
